import Mathlib

/-!
Verification of the rna-cli build orchestration core.

This development embeds, in Lean, the watch/rebuild engine of the `build`
command action (`src/commands/build/action.js`), the change filter
`filterChangedBundles` (same file, lines 598-608), the monorepo entry
resolution `Project.resolve` (`src/unnamed/part_001`, lines 668-691) and the
option validation of `WebManifestBundler.setup` (`src/unnamed/part_000`,
lines 62-76), and proves the specified scheduling, filtering and
error-handling properties about these embeddings.

Paths are plain strings.  JavaScript truthiness is modelled explicitly where
the source relies on it (the filter callback of `filterChangedBundles`
returns an empty array, a truthy value, for a bundler without a `files`
property).  The asynchronous watch scheduler is embedded as a small-step
machine over an explicit state: the shared `promise` variable of the action
is a single global chain of build jobs, `await` points are queued
continuations keyed by the chain position they wait for, and the JavaScript
micro-task drain that follows each event-loop turn is run to quiescence
after every external step.
-/

abbrev FPath := String

/-! ## The change filter (`filterChangedBundles`, action.js 598-608) -/

/-- One constructed bundler, as the watch code of the action sees it: an
identity and the `files` dependency list, which the underlying `Bundler`
populates on a successful build and which may be unset (`undefined`). -/
structure Bundler where
  bid : Nat
  files : Option (List FPath)
deriving DecidableEq, Repr

/-- The value returned by the filter callback inside `filterChangedBundles`:
either the literal empty array `[]` (returned when `bundle.files` is unset)
or the boolean produced by `files.some(...)`. -/
inductive FilterResult
  | emptyArray
  | bool (b : Bool)
deriving DecidableEq, Repr

/-- JavaScript truthiness of the filter callback's result: an empty array is
truthy, a boolean is itself. -/
def FilterResult.truthy : FilterResult → Bool
  | .emptyArray => true
  | .bool b => b

/-- The callback passed to `bundles.filter` in `filterChangedBundles`:
`if (!bundle.files) return []; return files.some((file) => bundle.files.includes(file))`. -/
def filterCallback (realFiles : List FPath) (b : Bundler) : FilterResult :=
  match b.files with
  | none => .emptyArray
  | some fs => .bool (realFiles.any fun f => fs.contains f)

/-- `filterChangedBundles(bundles, files)`: maps each changed file to its
symlink-resolved path with `realpathSync` (here the abstract `realpath`
argument), then keeps the bundles whose callback result is truthy. -/
def filterChangedBundles (realpath : FPath → FPath) (bundles : List Bundler)
    (files : List FPath) : List Bundler :=
  let realFiles := files.map realpath
  bundles.filter fun b => (filterCallback realFiles b).truthy

/-- The ignore predicate handed to `project.watch`
(`(file) => !filterChangedBundles(bundlers, [file]).length`):
true means the watcher skips the event. -/
def watchIgnore (realpath : FPath → FPath) (bundles : List Bundler)
    (file : FPath) : Bool :=
  (filterChangedBundles realpath bundles [file]).length == 0

/-- The selection the specification describes for a change batch: exactly the
bundles whose current `files` list contains the resolved path of at least one
changed file.  Stated from the spec's words, to be compared with
`filterChangedBundles`. -/
def specSelectedBundles (realpath : FPath → FPath) (bundles : List Bundler)
    (files : List FPath) : List Bundler :=
  bundles.filter fun b => files.any fun f => (b.files.getD []).contains (realpath f)

/-! ## Monorepo entry resolution (`Project.resolve`, part_001 668-691) -/

/-- A workspace package of the monorepo: its declared `name` and an identity
for the underlying Project instance. -/
structure WorkspaceProject where
  wname : String
  wid : Nat
deriving DecidableEq, Repr

/-- An entry produced by resolution: either a workspace `Project` matched by
name, or a file-system entry produced by the glob-based `Directory.resolve`. -/
inductive ResolvedEntry
  | proj (w : WorkspaceProject)
  | fsEntry (p : FPath)
deriving DecidableEq, Repr

/-- The monorepo branch of `Project.resolve`: patterns are filtered, each
pattern equal to a declared workspace name pushes that workspace into the
result and is dropped from the pattern list; the remaining patterns go
through the glob-based `super.resolve` (abstracted as `superResolve`), whose
results are appended after the matched projects. -/
def projectResolveMono (workspaces : List WorkspaceProject)
    (superResolve : List String → List ResolvedEntry)
    (patterns : List String) : List ResolvedEntry :=
  let acc := patterns.foldl
    (fun (acc : List ResolvedEntry × List String) (pat : String) =>
      match workspaces.find? (fun pr => pr.wname == pat) with
      | some matchProject => (acc.1 ++ [ResolvedEntry.proj matchProject], acc.2)
      | none => (acc.1, acc.2 ++ [pat]))
    ([], [])
  acc.1 ++ superResolve acc.2

/-- `Project.resolve(patterns)`: without a `workspaces` field the project is
not a monorepo and everything goes to the glob resolver; otherwise the
monorepo branch applies. -/
def projectResolve (workspaces : Option (List WorkspaceProject))
    (superResolve : List String → List ResolvedEntry)
    (patterns : List String) : List ResolvedEntry :=
  match workspaces with
  | none => superResolve patterns
  | some ws => projectResolveMono ws superResolve patterns

/-! ## `WebManifestBundler.setup` validation (part_000 62-76) -/

/-- A file reference; only the path matters here. -/
structure JsFile where
  path : String
deriving DecidableEq, Repr

/-- `path.basename(p)`: the final path segment. -/
def pathBasename (p : String) : String :=
  ((p.splitOn "/").getLast?).getD p

/-- `path.extname(p)`: the dot-suffix of the final segment, empty when the
segment has no dot after its first character. -/
def pathExtname (p : String) : String :=
  let b := pathBasename p
  match (b.drop 1).splitOn "." with
  | [] => ""
  | [_] => ""
  | parts => "." ++ (parts.getLastD "")

/-- `Entry.basename`: `path.basename(this.path, this.extname)`, the final
segment without its extension. -/
def pathBasenameNoExt (p : String) : String :=
  (pathBasename p).dropRight (pathExtname p).length

/-- The options object passed to `WebManifestBundler.setup`; a missing field
is a falsy `undefined`. -/
structure WMOptions where
  input : Option JsFile
  output : Option JsFile
deriving DecidableEq, Repr

/-- The configuration held by `this.options` after setup. -/
structure WMConfig where
  input : JsFile
  output : JsFile
deriving DecidableEq, Repr

/-- Modelled from the spec: `Bundler.setup` (the base class is not under
`src/`) validates nothing further here and freezes the configuration
snapshot — spec 4.2: "Freezes configuration". -/
def bundlerSuperSetup (input output : JsFile) : WMConfig :=
  ⟨input, output⟩

/-- `WebManifestBundler.setup(options)`: throws on a missing `input`, then on
a missing `output`, both before `super.setup` freezes the configuration;
afterwards, when the output has no extension, the output file is replaced by
`output.file(input.basename)`. -/
def wmSetup (o : WMOptions) : Except String WMConfig :=
  match o.input with
  | none => .error "missing \"input\" option for WebManifestBundler"
  | some input =>
    match o.output with
    | none => .error "missing \"output\" option for WebManifestBundler"
    | some output =>
      let cfg := bundlerSuperSetup input output
      if pathExtname output.path = "" then
        .ok { cfg with output := ⟨output.path ++ "/" ++ pathBasenameNoExt input.path⟩ }
      else
        .ok cfg

/-! ## The watch scheduler (action.js 521-583)

State of the watch section of the action:

* `collectedFiles` and the debounce `timeout` handle;
* the shared `promise` variable: a single chain of build jobs.  The chain is
  represented by the number of jobs ever appended (`chainLen`), the number
  completed (`chainDone`) and the job currently executing (`running`).  A
  `.then` callback or `await` registered on the chain is a queued
  continuation annotated with the chain position (`pos`) whose settlement it
  waits for: a continuation is ready once `chainDone` reaches its position,
  and ready continuations run in registration order, which is exactly the
  JavaScript micro-task order for callbacks of promises that settle in chain
  order;
* the `statuses` WeakMap of per-bundle `running`/`invalidate` records.

External interaction is a list of commands: a raw watcher event (`change`),
the 200 ms debounce timer expiring (`timerFire`) and the completion of one
I/O phase of the in-flight build or write (`ioStep`, whose boolean is
success or a thrown error). -/

/-- The per-bundle record kept in the `statuses` WeakMap: `running` and
`invalidate` both start out `undefined`. -/
structure RBStatus where
  running : Bool
  invalidate : Option (List FPath)
deriving DecidableEq, Repr

/-- A fresh status record (`statuses.get(bundle) || {}` on a missing key). -/
def RBStatus.init : RBStatus := ⟨false, none⟩

/-- Read a bundle's status record. -/
def rbGet (sts : List (Nat × RBStatus)) (b : Nat) : RBStatus :=
  ((sts.find? fun e => e.1 == b).map Prod.snd).getD RBStatus.init

/-- Store a bundle's status record (`statuses.set(bundle, status)`). -/
def rbSet (sts : List (Nat × RBStatus)) (b : Nat) (st : RBStatus) :
    List (Nat × RBStatus) :=
  (b, st) :: sts.filter fun e => e.1 != b

/-- A continuation queued on the shared promise chain, waiting for chain
position `pos` to settle:

* `jobCb` — the `.then` callback appended by `reBuild`, which runs
  `bundle.build(...invalidate)` then `bundle.write()` inside a `try/catch`;
* `rebuildResume` — the rest of `reBuild` after `await promise`
  (`status.running = false; reBuild(bundle)`);
* `flushResume` — the rest of the debounce-timeout callback after
  `await promise` (filter the snapshotted batch, call `reBuild` per bundle). -/
inductive ChainCont
  | jobCb (bid : Nat) (invalidate : List FPath) (pos : Nat)
  | rebuildResume (bid : Nat) (pos : Nat)
  | flushResume (batch : List FPath) (pos : Nat)
deriving DecidableEq, Repr

/-- The chain position a continuation waits for. -/
def ChainCont.pos : ChainCont → Nat
  | .jobCb _ _ p => p
  | .rebuildResume _ p => p
  | .flushResume _ p => p

/-- The chain position of a `jobCb`, `none` for the other continuations. -/
def ChainCont.jobPos? : ChainCont → Option Nat
  | .jobCb _ _ p => some p
  | _ => none

/-- The in-flight build job: which bundle, the invalidated paths passed to
`build`, and whether it is inside `bundle.build()` or `bundle.write()`. -/
inductive JobPhase
  | building
  | writing
deriving DecidableEq, Repr

structure RunJob where
  bid : Nat
  invalidate : List FPath
  phase : JobPhase
deriving DecidableEq, Repr

/-- Observable events of a watch session. -/
inductive Ev
  | buildStart (bid : Nat) (invalidate : List FPath)
  | buildEnd (bid : Nat)
  | writeEnd (bid : Nat)
  | errorLogged (bid : Nat)
deriving DecidableEq, Repr

/-- The machine state of the watch section. -/
structure WState where
  collected : List FPath
  timerOn : Bool
  chainLen : Nat
  chainDone : Nat
  queue : List ChainCont
  statuses : List (Nat × RBStatus)
  running : Option RunJob
  flushes : List (List FPath)
  trace : List Ev
deriving Repr

/-- The state when `project.watch` is attached. -/
def WState.init : WState :=
  ⟨[], false, 0, 0, [], [], none, [], []⟩

/-- The synchronous body of `reBuild(bundle, files)` up to and including its
`await promise`:

```
let status = statuses.get(bundle) || {};
if (files) { status.invalidate = files; }
statuses.set(bundle, status);
if (status.running && !status.invalidate || status.invalidate.length === 0) {
    return;
}
let invalidate = status.invalidate;
status.invalidate = [];
status.running = true;
statuses.set(bundle, status);
promise = promise.then(async () => { try { await bundle.build(...invalidate);
    await bundle.write(); } catch (err) { if (err) app.logger.error(err); } });
await promise;
```

When the guard does not return, the job is appended to the chain and the
continuation after `await promise` is queued at the new chain tail.  With
`invalidate` undefined the guard either returns early (`running` true) or
throws a `TypeError` reading `.length` of `undefined`, which also ends the
call with no further state change, so both cases are a plain return here. -/
def runReBuildCore (bid : Nat) (st1 : RBStatus) (s : WState) : WState :=
  let s := { s with statuses := rbSet s.statuses bid st1 }
  match st1.invalidate with
  | none => s
  | some l =>
    if l.isEmpty then s
    else
      let st2 : RBStatus := { running := true, invalidate := some [] }
      let jobPos := s.chainLen
      { s with
        statuses := rbSet s.statuses bid st2
        chainLen := s.chainLen + 1
        queue := s.queue ++ [.jobCb bid l jobPos, .rebuildResume bid (jobPos + 1)] }

def runReBuild (bid : Nat) (files : Option (List FPath)) (s : WState) : WState :=
  let st0 := rbGet s.statuses bid
  runReBuildCore bid
    (match files with
      | some fs => { st0 with invalidate := some fs }
      | none => st0) s

/-- Run one ready continuation. -/
def processCont (realpath : FPath → FPath) (bundlers : List Bundler) :
    ChainCont → WState → WState
  | .jobCb bid invalidate _, s =>
    { s with
      running := some ⟨bid, invalidate, .building⟩
      trace := s.trace ++ [.buildStart bid invalidate] }
  | .rebuildResume bid _, s =>
    let st := rbGet s.statuses bid
    let s := { s with statuses := rbSet s.statuses bid { st with running := false } }
    runReBuild bid none s
  | .flushResume batch _, s =>
    let s := { s with flushes := s.flushes ++ [batch] }
    let bundlesWithChanges := filterChangedBundles realpath bundlers batch
    if bundlesWithChanges.isEmpty then s
    else bundlesWithChanges.foldl (fun s b => runReBuild b.bid (some batch) s) s

/-- Find the first queued continuation whose chain position has settled and
remove it, keeping the order of the rest. -/
def findReady (chainDone : Nat) : List ChainCont → Option (ChainCont × List ChainCont)
  | [] => none
  | c :: rest =>
    if c.pos ≤ chainDone then some (c, rest)
    else match findReady chainDone rest with
      | none => none
      | some (c', rest') => some (c', c :: rest')

/-- Drain the micro-task queue: repeatedly run the first ready continuation.
`chainDone` does not change while draining, so at most one continuation
appended during the drain (a job callback appended at the settled chain
tail) can become ready, and the fuel `queue.length + 2` always suffices. -/
def drainLoop (realpath : FPath → FPath) (bundlers : List Bundler) :
    Nat → WState → WState
  | 0, s => s
  | fuel + 1, s =>
    match findReady s.chainDone s.queue with
    | none => s
    | some (c, rest) =>
      drainLoop realpath bundlers fuel (processCont realpath bundlers c { s with queue := rest })

def drain (realpath : FPath → FPath) (bundlers : List Bundler) (s : WState) : WState :=
  drainLoop realpath bundlers (s.queue.length + 2) s

/-- A completed job settles the next chain position: the error branch of the
`try/catch` logs the error and lets the chain promise resolve, the success
branch ends with `write()` done.  The following micro-task drain runs the
ready continuations. -/
def completeJob (realpath : FPath → FPath) (bundlers : List Bundler)
    (r : RunJob) (ok : Bool) (s : WState) : WState :=
  let s := { s with
    running := none
    chainDone := s.chainDone + 1
    trace := s.trace ++ [if ok then .writeEnd r.bid else .errorLogged r.bid] }
  drain realpath bundlers s

/-- External commands driving the watch session. -/
inductive WCmd
  | change (p : FPath)
  | timerFire
  | ioStep (ok : Bool)
deriving DecidableEq, Repr

/-- One external step:

* `change p` — the watcher fires unless the ignore predicate holds; the
  callback pushes the path onto `collectedFiles` and restarts the debounce
  timer (`clearTimeout` + `setTimeout`);
* `timerFire` — the debounce timeout snapshots and clears `collectedFiles`,
  then `await promise` queues the rest of the callback on the chain tail;
* `ioStep ok` — the in-flight `bundle.build()` resp. `bundle.write()`
  returns or throws; a throw is caught by the job's `try/catch`. -/
def stepCmd (realpath : FPath → FPath) (bundlers : List Bundler) :
    WCmd → WState → WState
  | .change p, s =>
    if watchIgnore realpath bundlers p then s
    else { s with collected := s.collected ++ [p], timerOn := true }
  | .timerFire, s =>
    if s.timerOn then
      let batch := s.collected
      let s := { s with
        collected := []
        timerOn := false
        queue := s.queue ++ [.flushResume batch s.chainLen] }
      drain realpath bundlers s
    else s
  | .ioStep ok, s =>
    match s.running with
    | none => s
    | some r =>
      match r.phase, ok with
      | .building, true =>
        { s with
          running := some { r with phase := .writing }
          trace := s.trace ++ [.buildEnd r.bid] }
      | .building, false => completeJob realpath bundlers r false s
      | .writing, _ => completeJob realpath bundlers r ok s

/-- Run a whole command schedule from a state. -/
def runCmds (realpath : FPath → FPath) (bundlers : List Bundler)
    (cmds : List WCmd) (s : WState) : WState :=
  cmds.foldl (fun s c => stepCmd realpath bundlers c s) s

/-! ## Trace counting -/

/-- Number of rebuild cycles started in a trace. -/
def startCount (t : List Ev) : Nat :=
  t.countP fun e => match e with
    | .buildStart _ _ => true
    | _ => false

/-- Number of rebuild cycles finished (successfully or by a caught error). -/
def closeCount (t : List Ev) : Nat :=
  t.countP fun e => match e with
    | .writeEnd _ => true
    | .errorLogged _ => true
    | _ => false

/-- Cycles of one bundle started in a trace. -/
def startCountOf (bid : Nat) (t : List Ev) : Nat :=
  t.countP fun e => match e with
    | .buildStart b _ => b == bid
    | _ => false

/-- Cycles of one bundle finished in a trace. -/
def closeCountOf (bid : Nat) (t : List Ev) : Nat :=
  t.countP fun e => match e with
    | .writeEnd b => b == bid
    | .errorLogged b => b == bid
    | _ => false

/-! ## C4: which bundles a change batch selects -/

/-- C4 counterexample input: one bundler whose `files` property is unset. -/
def noFilesBundler : Bundler := ⟨0, none⟩

/-- C4: the claim "the set of bundles selected for rebuild equals exactly the
set of bundles whose current `files` list contains the resolved path of at
least one changed file" fails at a bundler with unset `files`: it is
selected by `filterChangedBundles` although its `files` list contains
nothing, so the selection differs from the spec-described one. -/
theorem C4_cex :
    filterChangedBundles (fun p => p) [noFilesBundler] ["a.js"] = [noFilesBundler]
    ∧ specSelectedBundles (fun p => p) [noFilesBundler] ["a.js"] = []
    ∧ noFilesBundler.files.getD [] = [] := by
  refine ⟨?_, ?_, ?_⟩ <;> decide

/-- C4 amended: a bundle is selected for rebuild iff it is a constructed
bundler and either its `files` property is unset, or its `files` list
contains the resolved path of at least one changed file of the batch. -/
theorem C4_thm (realpath : FPath → FPath) (bundles : List Bundler)
    (files : List FPath) (b : Bundler) :
    b ∈ filterChangedBundles realpath bundles files ↔
      b ∈ bundles ∧
        (b.files = none ∨ ∃ fs, b.files = some fs ∧ ∃ f ∈ files, realpath f ∈ fs) := by
  unfold filterChangedBundles
  rw [List.mem_filter]
  constructor
  · rintro ⟨hb, ht⟩
    refine ⟨hb, ?_⟩
    unfold filterCallback at ht
    cases hf : b.files with
    | none => exact Or.inl rfl
    | some fs =>
      rw [hf] at ht
      simp only [FilterResult.truthy, List.any_eq_true, List.mem_map] at ht
      obtain ⟨rf, ⟨f, hfmem, hrf⟩, hcont⟩ := ht
      exact Or.inr ⟨fs, rfl, f, hfmem, by
        rw [← hrf] at hcont; exact List.mem_of_elem_eq_true hcont⟩
  · rintro ⟨hb, hcase⟩
    refine ⟨hb, ?_⟩
    unfold filterCallback
    rcases hcase with hnone | ⟨fs, hfs, f, hfmem, hin⟩
    · rw [hnone]; rfl
    · rw [hfs]
      simp only [FilterResult.truthy, List.any_eq_true, List.mem_map]
      exact ⟨realpath f, ⟨f, hfmem, rfl⟩, List.elem_eq_true_of_mem hin⟩

/-- Witness for C4_thm at a concrete tracked file. -/
theorem C4_witness :
    (⟨1, some ["/src/a.js"]⟩ : Bundler) ∈
      filterChangedBundles (fun p => p) [⟨1, some ["/src/a.js"]⟩] ["/src/a.js"] := by
  exact (C4_thm (fun p => p) [⟨1, some ["/src/a.js"]⟩] ["/src/a.js"] ⟨1, some ["/src/a.js"]⟩).mpr
    ⟨by decide, Or.inr ⟨["/src/a.js"], rfl, "/src/a.js", by decide, by decide⟩⟩

/-! ## C10: a bundler without `files` is treated as affected by every change -/

/-- C10: for a non-empty change list, a bundler whose `files` property is
unset is always included in `filterChangedBundles` — its filter callback
returns the empty array, which is truthy — and the watch ignore predicate
never discards an event while such a bundler is registered. -/
theorem C10_thm (realpath : FPath → FPath) (bundles : List Bundler)
    (files : List FPath) (b : Bundler)
    (hb : b ∈ bundles) (hnone : b.files = none) (hne : files ≠ []) :
    b ∈ filterChangedBundles realpath bundles files
    ∧ filterCallback (files.map realpath) b = .emptyArray
    ∧ FilterResult.truthy .emptyArray = true
    ∧ ∀ file : FPath, watchIgnore realpath bundles file = false := by
  have hmem : ∀ gs : List FPath, b ∈ filterChangedBundles realpath bundles gs := by
    intro gs
    unfold filterChangedBundles
    rw [List.mem_filter]
    exact ⟨hb, by unfold filterCallback; rw [hnone]; rfl⟩
  refine ⟨hmem files, by unfold filterCallback; rw [hnone], rfl, ?_⟩
  intro file
  unfold watchIgnore
  have hne2 : filterChangedBundles realpath bundles [file] ≠ [] :=
    fun h => by simpa [h] using hmem [file]
  simp only [beq_eq_false_iff_ne, ne_eq]
  exact fun hlen => hne2 (List.length_eq_zero.mp hlen)

/-- Witness for C10_thm: a concrete bundler without `files` next to a normal
one; the unset-files bundler survives the filter for an unrelated path. -/
theorem C10_witness :
    noFilesBundler ∈
      filterChangedBundles (fun p => p) [noFilesBundler, ⟨1, some ["x"]⟩] ["unrelated"]
    ∧ watchIgnore (fun p => p) [noFilesBundler, ⟨1, some ["x"]⟩] "unrelated" = false := by
  have h := C10_thm (fun p => p) [noFilesBundler, ⟨1, some ["x"]⟩] ["unrelated"]
    noFilesBundler (by decide) rfl (by decide)
  exact ⟨h.1, h.2.2.2 "unrelated"⟩

/-! ## C8: workspace-name match takes priority over glob expansion -/

/-- The workspace matched by a pattern, if any (`workspaces.find(...)`). -/
def wsMatch (ws : List WorkspaceProject) (pat : String) : Option WorkspaceProject :=
  ws.find? fun pr => pr.wname == pat

/-- The patterns left for glob expansion: those matching no workspace name. -/
def globPatterns (ws : List WorkspaceProject) (patterns : List String) : List String :=
  patterns.filter fun pat => (wsMatch ws pat).isNone

/-- The foldl of `projectResolveMono` splits the patterns into matched
workspaces and remaining glob patterns. -/
theorem projectResolveMono_foldl (ws : List WorkspaceProject)
    (patterns : List String) (acc : List ResolvedEntry × List String) :
    patterns.foldl
      (fun (acc : List ResolvedEntry × List String) (pat : String) =>
        match ws.find? (fun pr => pr.wname == pat) with
        | some matchProject => (acc.1 ++ [ResolvedEntry.proj matchProject], acc.2)
        | none => (acc.1, acc.2 ++ [pat]))
      acc =
      (acc.1 ++ patterns.filterMap fun pat => (wsMatch ws pat).map ResolvedEntry.proj,
        acc.2 ++ globPatterns ws patterns) := by
  induction patterns generalizing acc with
  | nil => simp [globPatterns]
  | cons pat rest ih =>
    simp only [List.foldl_cons]
    cases hfind : ws.find? (fun pr => pr.wname == pat) with
    | some w =>
      rw [ih]
      simp [globPatterns, wsMatch, hfind, List.filter_cons, List.filterMap_cons]
    | none =>
      rw [ih]
      simp [globPatterns, wsMatch, hfind, List.filter_cons, List.filterMap_cons]

/-- C8: on a monorepo project, a pattern that exactly equals a declared
workspace name resolves to that workspace's Project and is excluded from
file-system glob expansion; the remaining patterns are resolved by the glob
resolver, whose results follow the matched projects. -/
theorem C8_thm (ws : List WorkspaceProject)
    (superResolve : List String → List ResolvedEntry) (patterns : List String) :
    projectResolve (some ws) superResolve patterns =
      (patterns.filterMap fun pat => (wsMatch ws pat).map ResolvedEntry.proj)
        ++ superResolve (globPatterns ws patterns)
    ∧ (∀ pat ∈ patterns, ∀ w, wsMatch ws pat = some w →
        w.wname = pat
        ∧ ResolvedEntry.proj w ∈ projectResolve (some ws) superResolve patterns
        ∧ pat ∉ globPatterns ws patterns)
    ∧ (∀ pat ∈ patterns, wsMatch ws pat = none → pat ∈ globPatterns ws patterns) := by
  have hmain : projectResolve (some ws) superResolve patterns =
      (patterns.filterMap fun pat => (wsMatch ws pat).map ResolvedEntry.proj)
        ++ superResolve (globPatterns ws patterns) := by
    show projectResolveMono ws superResolve patterns = _
    unfold projectResolveMono
    rw [projectResolveMono_foldl]
    simp
  refine ⟨hmain, ?_, ?_⟩
  · intro pat hpat w hw
    refine ⟨?_, ?_, ?_⟩
    · have hw2 : ws.find? (fun pr => pr.wname == pat) = some w := hw
      have hbeq := List.find?_some hw2
      simp only [] at hbeq
      exact eq_of_beq hbeq
    · rw [hmain]
      refine List.mem_append.mpr (Or.inl ?_)
      exact List.mem_filterMap.mpr ⟨pat, hpat, by rw [hw]; rfl⟩
    · intro hcontra
      have := (List.mem_filter.mp hcontra).2
      rw [hw] at this
      simp [Option.isNone] at this
  · intro pat hpat hnone
    exact List.mem_filter.mpr ⟨hpat, by rw [hnone]; rfl⟩

/-- Witness for C8_thm: one workspace named `pkg-a`; the pattern `pkg-a`
resolves to the workspace project and only `src/x.js` reaches the glob. -/
theorem C8_witness :
    projectResolve (some [⟨"pkg-a", 0⟩]) (fun pats => pats.map .fsEntry)
        ["pkg-a", "src/x.js"] =
      [.proj ⟨"pkg-a", 0⟩, .fsEntry "src/x.js"]
    ∧ ResolvedEntry.proj ⟨"pkg-a", 0⟩ ∈
        projectResolve (some [⟨"pkg-a", 0⟩]) (fun pats => pats.map .fsEntry)
          ["pkg-a", "src/x.js"]
    ∧ "pkg-a" ∉ globPatterns [⟨"pkg-a", 0⟩] ["pkg-a", "src/x.js"] := by
  have h := C8_thm [⟨"pkg-a", 0⟩] (fun pats => pats.map .fsEntry) ["pkg-a", "src/x.js"]
  have h2 := h.2.1 "pkg-a" (by decide) ⟨"pkg-a", 0⟩ (by decide)
  exact ⟨by decide, h2.2.1, h2.2.2⟩

/-! ## C9: mandatory input/output validation in `WebManifestBundler.setup` -/

/-- C9: a missing `input` option fails with the configuration error naming
`input`; with `input` present, a missing `output` fails naming `output`;
both failures happen before `super.setup` freezes a configuration (the
error result carries no `WMConfig`); with both present, setup succeeds. -/
theorem C9_thm (o : WMOptions) :
    (o.input = none →
      wmSetup o = .error "missing \"input\" option for WebManifestBundler")
    ∧ (o.input ≠ none → o.output = none →
      wmSetup o = .error "missing \"output\" option for WebManifestBundler")
    ∧ ((∃ i, o.input = some i) → (∃ u, o.output = some u) →
      ∃ cfg, wmSetup o = .ok cfg) := by
  refine ⟨?_, ?_, ?_⟩
  · intro h; unfold wmSetup; rw [h]
  · intro hi ho
    cases hin : o.input with
    | none => exact absurd hin hi
    | some i => unfold wmSetup; rw [hin, ho]
  · rintro ⟨i, hi⟩ ⟨u, hu⟩
    by_cases hext : pathExtname u.path = ""
    · refine ⟨{ input := i, output := ⟨u.path ++ "/" ++ pathBasenameNoExt i.path⟩ }, ?_⟩
      unfold wmSetup
      rw [hi, hu]
      simp [bundlerSuperSetup, hext]
    · refine ⟨bundlerSuperSetup i u, ?_⟩
      unfold wmSetup
      rw [hi, hu]
      simp [hext]

/-- Witness for C9_thm at concrete option objects. -/
theorem C9_witness :
    wmSetup ⟨none, some ⟨"/out"⟩⟩ =
      .error "missing \"input\" option for WebManifestBundler"
    ∧ wmSetup ⟨some ⟨"/app/manifest.webmanifest"⟩, none⟩ =
      .error "missing \"output\" option for WebManifestBundler"
    ∧ ∃ cfg, wmSetup ⟨some ⟨"/app/manifest.webmanifest"⟩, some ⟨"/out/manifest.webmanifest"⟩⟩ =
        .ok cfg := by
  refine ⟨?_, ?_, ?_⟩
  · exact (C9_thm ⟨none, some ⟨"/out"⟩⟩).1 rfl
  · exact (C9_thm ⟨some ⟨"/app/manifest.webmanifest"⟩, none⟩).2.1 (by simp) rfl
  · exact (C9_thm ⟨some ⟨"/app/manifest.webmanifest"⟩, some ⟨"/out/manifest.webmanifest"⟩⟩).2.2
      ⟨_, rfl⟩ ⟨_, rfl⟩

/-! ## C3: changes outside every `files` set never trigger a build -/

/-- The debounce window constant of the watch callback (`setTimeout(..., 200)`). -/
def debounceWindowMs : Nat := 200

/-- A command is harmless for the given bundlers when, if it is a change
event, its resolved path lies outside every bundler's `files` list. -/
def changeUntracked (realpath : FPath → FPath) (bundlers : List Bundler) :
    WCmd → Prop
  | .change p => ∀ b ∈ bundlers, realpath p ∉ b.files.getD []
  | _ => True

instance (realpath : FPath → FPath) (bundlers : List Bundler) (c : WCmd) :
    Decidable (changeUntracked realpath bundlers c) := by
  unfold changeUntracked
  cases c <;> infer_instance

/-- A single-path change filter comes out empty when every bundler has a
`files` list and none of them contains the resolved path. -/
theorem filterChangedBundles_eq_nil (realpath : FPath → FPath)
    (bundlers : List Bundler) (p : FPath)
    (hsome : ∀ b ∈ bundlers, b.files.isSome)
    (hp : ∀ b ∈ bundlers, realpath p ∉ b.files.getD []) :
    filterChangedBundles realpath bundlers [p] = [] := by
  unfold filterChangedBundles
  rw [List.filter_eq_nil_iff]
  intro b hb
  obtain ⟨fs, hfs⟩ := Option.isSome_iff_exists.mp (hsome b hb)
  have hnp : realpath p ∉ fs := by
    have := hp b hb
    rw [hfs] at this
    simpa using this
  unfold filterCallback
  rw [hfs]
  simp only [FilterResult.truthy, List.map, List.any_cons, List.any_nil, Bool.or_false]
  intro hcontra
  exact hnp (List.mem_of_elem_eq_true hcontra)

/-- An untracked command leaves the idle initial state untouched. -/
theorem stepCmd_untracked (realpath : FPath → FPath) (bundlers : List Bundler)
    (c : WCmd)
    (hsome : ∀ b ∈ bundlers, b.files.isSome)
    (hc : changeUntracked realpath bundlers c) :
    stepCmd realpath bundlers c WState.init = WState.init := by
  cases c with
  | change p =>
    have hig : watchIgnore realpath bundlers p = true := by
      unfold watchIgnore
      rw [filterChangedBundles_eq_nil realpath bundlers p hsome hc]
      rfl
    show (if watchIgnore realpath bundlers p then _ else _) = _
    rw [hig]
    rfl
  | timerFire => rfl
  | ioStep ok => rfl

/-- C3: when every constructed bundler has a populated `files` list and every
change event of the schedule touches only paths whose resolved form lies
outside all of those lists, the whole watch session stays idle: the watcher
ignore predicate drops every event, no batch is ever flushed, and no
`build()` call is issued. -/
theorem C3_thm (realpath : FPath → FPath) (bundlers : List Bundler)
    (cmds : List WCmd)
    (hsome : ∀ b ∈ bundlers, b.files.isSome)
    (hcmds : ∀ c ∈ cmds, changeUntracked realpath bundlers c) :
    runCmds realpath bundlers cmds WState.init = WState.init
    ∧ (runCmds realpath bundlers cmds WState.init).trace = []
    ∧ startCount (runCmds realpath bundlers cmds WState.init).trace = 0 := by
  have hmain : runCmds realpath bundlers cmds WState.init = WState.init := by
    induction cmds with
    | nil => rfl
    | cons c rest ih =>
      show runCmds realpath bundlers rest
        (stepCmd realpath bundlers c WState.init) = WState.init
      rw [stepCmd_untracked realpath bundlers c hsome (hcmds c (List.mem_cons_self c rest))]
      exact ih fun c hc => hcmds c (List.mem_cons_of_mem _ hc)
  exact ⟨hmain, by rw [hmain]; rfl, by rw [hmain]; rfl⟩

/-- Witness for C3_thm: two tracked bundles, a change to an unrelated path,
a timer expiry and an I/O step produce no build at all. -/
theorem C3_witness :
    runCmds (fun p => p) [⟨0, some ["/src/a.js"]⟩, ⟨1, some ["/src/b.css"]⟩]
        [.change "/src/unrelated.txt", .timerFire, .ioStep true] WState.init
      = WState.init := by
  have h := C3_thm (fun p => p) [⟨0, some ["/src/a.js"]⟩, ⟨1, some ["/src/b.css"]⟩]
    [.change "/src/unrelated.txt", .timerFire, .ioStep true]
    (by decide) (by decide)
  exact h.1

/-! ## C5: debounce accumulation and coalescing -/

/-- A run of raw change events (each not ignored) only accumulates the paths
into `collectedFiles` and keeps restarting the debounce timer. -/
theorem runCmds_changes (realpath : FPath → FPath) (bundlers : List Bundler)
    (s : WState) (paths : List FPath)
    (h : ∀ p ∈ paths, watchIgnore realpath bundlers p = false) :
    runCmds realpath bundlers (paths.map .change) s =
      { s with
        collected := s.collected ++ paths
        timerOn := s.timerOn || !paths.isEmpty } := by
  induction paths generalizing s with
  | nil =>
    show s = _
    cases s
    simp
  | cons p rest ih =>
    have hp : watchIgnore realpath bundlers p = false := h p (List.mem_cons_self p rest)
    show runCmds realpath bundlers (rest.map .change)
      (stepCmd realpath bundlers (.change p) s) = _
    have hstep : stepCmd realpath bundlers (.change p) s =
        { s with collected := s.collected ++ [p], timerOn := true } := by
      show (if watchIgnore realpath bundlers p then _ else _) = _
      rw [hp]
      rfl
    rw [hstep, ih _ fun q hq => h q (List.mem_cons_of_mem _ hq)]
    simp

/-- `reBuild` never touches the accumulation buffer or the debounce timer. -/
theorem runReBuildCore_proj (bid : Nat) (st1 : RBStatus) (s : WState) :
    (runReBuildCore bid st1 s).collected = s.collected
    ∧ (runReBuildCore bid st1 s).timerOn = s.timerOn := by
  simp only [runReBuildCore]
  split
  · exact ⟨rfl, rfl⟩
  · split
    · exact ⟨rfl, rfl⟩
    · exact ⟨rfl, rfl⟩

theorem runReBuild_proj (bid : Nat) (files : Option (List FPath)) (s : WState) :
    (runReBuild bid files s).collected = s.collected
    ∧ (runReBuild bid files s).timerOn = s.timerOn :=
  runReBuildCore_proj bid _ s

/-- Scheduling rebuilds for a list of affected bundles never touches the
accumulation buffer or the debounce timer. -/
theorem foldl_runReBuild_proj (batch : List FPath) (bs : List Bundler) (s : WState) :
    ((bs.foldl (fun s b => runReBuild b.bid (some batch) s) s).collected = s.collected)
    ∧ ((bs.foldl (fun s b => runReBuild b.bid (some batch) s) s).timerOn = s.timerOn) := by
  induction bs generalizing s with
  | nil => exact ⟨rfl, rfl⟩
  | cons b rest ih =>
    have h1 := runReBuild_proj b.bid (some batch) s
    have h2 := ih (runReBuild b.bid (some batch) s)
    exact ⟨h2.1.trans h1.1, h2.2.trans h1.2⟩

/-- A continuation run never touches the accumulation buffer or the debounce
timer. -/
theorem processCont_proj (realpath : FPath → FPath) (bundlers : List Bundler)
    (c : ChainCont) (s : WState) :
    (processCont realpath bundlers c s).collected = s.collected
    ∧ (processCont realpath bundlers c s).timerOn = s.timerOn := by
  cases c with
  | jobCb bid inv pos => exact ⟨rfl, rfl⟩
  | rebuildResume bid pos =>
    simp only [processCont]
    exact runReBuild_proj bid none _
  | flushResume batch pos =>
    simp only [processCont]
    by_cases hf : (filterChangedBundles realpath bundlers batch).isEmpty
    · rw [if_pos hf]
      exact ⟨rfl, rfl⟩
    · rw [if_neg hf]
      exact foldl_runReBuild_proj batch _ _

/-- The micro-task drain never touches the accumulation buffer or the
debounce timer. -/
theorem drainLoop_proj (realpath : FPath → FPath) (bundlers : List Bundler)
    (fuel : Nat) (s : WState) :
    (drainLoop realpath bundlers fuel s).collected = s.collected
    ∧ (drainLoop realpath bundlers fuel s).timerOn = s.timerOn := by
  induction fuel generalizing s with
  | zero => exact ⟨rfl, rfl⟩
  | succ n ih =>
    show (match findReady s.chainDone s.queue with
      | none => s
      | some (c, rest) => drainLoop realpath bundlers n
          (processCont realpath bundlers c { s with queue := rest })).collected = s.collected
      ∧ (match findReady s.chainDone s.queue with
      | none => s
      | some (c, rest) => drainLoop realpath bundlers n
          (processCont realpath bundlers c { s with queue := rest })).timerOn = s.timerOn
    cases hfr : findReady s.chainDone s.queue with
    | none => exact ⟨rfl, rfl⟩
    | some pair =>
      obtain ⟨c, rest⟩ := pair
      have h1 := processCont_proj realpath bundlers c { s with queue := rest }
      have h2 := ih (processCont realpath bundlers c { s with queue := rest })
      exact ⟨h2.1.trans h1.1, h2.2.trans h1.2⟩

/-- The debounce flush snapshots and clears `collectedFiles` before awaiting
the chain, so the buffer is empty after the timer fires. -/
theorem timerFire_clears (realpath : FPath → FPath) (bundlers : List Bundler)
    (s : WState) (h : s.timerOn = true) :
    (stepCmd realpath bundlers .timerFire s).collected = [] := by
  show (if s.timerOn then _ else _ : WState).collected = []
  rw [h, if_pos rfl]
  exact (drainLoop_proj realpath bundlers _ _).1

/-- C5: every non-ignored change event appends its path to the shared
accumulation buffer and restarts the debounce timer (a 200 ms window); the
timer expiry snapshots and clears the buffer into one batch; and a burst of
three saves of the same tracked file inside one window yields exactly one
rebuild cycle of the affected bundle and none of the other. -/
theorem C5_thm (realpath : FPath → FPath) (bundlers : List Bundler)
    (s : WState) (paths : List FPath)
    (h : ∀ p ∈ paths, watchIgnore realpath bundlers p = false)
    (hne : paths ≠ []) :
    debounceWindowMs = 200
    ∧ runCmds realpath bundlers (paths.map .change) s =
        { s with collected := s.collected ++ paths, timerOn := true }
    ∧ (stepCmd realpath bundlers .timerFire
        (runCmds realpath bundlers (paths.map .change) s)).collected = []
    ∧ (runCmds (fun p => p)
        [⟨0, some ["/src/util.js"]⟩, ⟨1, some ["/src/b.css"]⟩]
        [.change "/src/util.js", .change "/src/util.js", .change "/src/util.js",
          .timerFire, .ioStep true, .ioStep true] WState.init).trace =
        [.buildStart 0 ["/src/util.js", "/src/util.js", "/src/util.js"],
          .buildEnd 0, .writeEnd 0]
    ∧ startCountOf 0 ((runCmds (fun p => p)
        [⟨0, some ["/src/util.js"]⟩, ⟨1, some ["/src/b.css"]⟩]
        [.change "/src/util.js", .change "/src/util.js", .change "/src/util.js",
          .timerFire, .ioStep true, .ioStep true] WState.init).trace) = 1
    ∧ startCountOf 1 ((runCmds (fun p => p)
        [⟨0, some ["/src/util.js"]⟩, ⟨1, some ["/src/b.css"]⟩]
        [.change "/src/util.js", .change "/src/util.js", .change "/src/util.js",
          .timerFire, .ioStep true, .ioStep true] WState.init).trace) = 0 := by
  have hrun := runCmds_changes realpath bundlers s paths h
  have hempty : paths.isEmpty = false := by
    cases paths with
    | nil => exact absurd rfl hne
    | cons a l => rfl
  rw [hempty] at hrun
  simp only [Bool.not_false, Bool.or_true] at hrun
  refine ⟨rfl, hrun, ?_, by decide, by decide, by decide⟩
  rw [hrun]
  exact timerFire_clears realpath bundlers _ rfl

/-- Witness for C5_thm at a concrete burst of saves. -/
theorem C5_witness :
    runCmds (fun p => p) [⟨0, some ["/src/util.js"]⟩]
        (["/src/util.js", "/src/util.js"].map .change) WState.init =
      { WState.init with
        collected := ["/src/util.js", "/src/util.js"], timerOn := true } := by
  have h := C5_thm (fun p => p) [⟨0, some ["/src/util.js"]⟩] WState.init
    ["/src/util.js", "/src/util.js"] (by decide) (by decide)
  simpa using h.2.1

/-! ## C7: initial builds complete before the watcher acts -/

/-- The watch branch of the action runs
`await Promise.all(bundlers.filter(Boolean).map((bundler) => bundler.toPromise()))`
before `project.watch(...)` is called, so the observable trace of a watch
session is some interleaved trace of the initial builds followed by the
trace of the watch machine started in its idle state. -/
def buildActionTrace (realpath : FPath → FPath) (bundlers : List Bundler)
    (initTrace : List Ev) (cmds : List WCmd) : List Ev :=
  initTrace ++ (runCmds realpath bundlers cmds WState.init).trace

/-- C7: whenever every constructed bundler's initial build has completed
inside the initial segment (which the action's `await Promise.all` enforces
before attaching the watcher), every rebuild start — an event of the watch
machine, hence at an index past the initial segment — is preceded by that
bundle's initial completion. -/
theorem C7_thm (realpath : FPath → FPath) (bundlers : List Bundler)
    (initTrace : List Ev) (cmds : List WCmd)
    (hinit : ∀ b ∈ bundlers, Ev.writeEnd b.bid ∈ initTrace) :
    ∀ b ∈ bundlers, ∀ j inv, initTrace.length ≤ j →
      (buildActionTrace realpath bundlers initTrace cmds).get? j =
        some (.buildStart b.bid inv) →
      ∃ i < j, (buildActionTrace realpath bundlers initTrace cmds).get? i =
        some (.writeEnd b.bid) := by
  intro b hb j inv hj _hstart
  obtain ⟨i, hget⟩ := List.get?_of_mem (hinit b hb)
  have hilt : i < initTrace.length := List.get?_eq_some.mp hget |>.1
  refine ⟨i, lt_of_lt_of_le hilt hj, ?_⟩
  unfold buildActionTrace
  rw [List.get?_append hilt]
  exact hget

/-- Witness for C7_thm: one bundle, a completed initial build, a rebuild
triggered by a change to its tracked file. -/
theorem C7_witness :
    ∃ i < 3, (buildActionTrace (fun p => p) [⟨0, some ["/src/a.js"]⟩]
      [.buildStart 0 [], .buildEnd 0, .writeEnd 0]
      [.change "/src/a.js", .timerFire, .ioStep true, .ioStep true]).get? i =
        some (.writeEnd 0) := by
  have h := C7_thm (fun p => p) [⟨0, some ["/src/a.js"]⟩]
    [.buildStart 0 [], .buildEnd 0, .writeEnd 0]
    [.change "/src/a.js", .timerFire, .ioStep true, .ioStep true]
    (by decide) ⟨0, some ["/src/a.js"]⟩ (by decide) 3 ["/src/a.js"]
    (by decide) (by decide)
  exact h

/-! ## Chain serialization invariant

The shared `promise` variable serializes every build job: a job appended at
chain position `k` starts only when the `k` previous jobs have completed.
The invariant below captures the reachable shape of the machine state and
yields the serialization theorem: at every moment, at most one
`build()+write()` cycle is in flight across all bundles (and a fortiori per
bundle). -/

/-- Number of in-flight jobs represented by the `running` field (0 or 1). -/
def inFlight : Option RunJob → Nat
  | none => 0
  | some _ => 1

/-- In-flight jobs of one bundle. -/
def inFlightOf (bid : Nat) : Option RunJob → Nat
  | some r => if r.bid == bid then 1 else 0
  | none => 0

/-- Reachable-state invariant of the watch machine. -/
structure WInv (s : WState) : Prop where
  len_le : s.chainDone + inFlight s.running ≤ s.chainLen
  job_lb : ∀ bid inv pos, ChainCont.jobCb bid inv pos ∈ s.queue →
    s.chainDone + inFlight s.running ≤ pos ∧ pos < s.chainLen
  job_nodup : (s.queue.filterMap ChainCont.jobPos?).Nodup
  count_eq : startCount s.trace = closeCount s.trace + inFlight s.running
  count_eq_of : ∀ bid, startCountOf bid s.trace =
    closeCountOf bid s.trace + inFlightOf bid s.running
  serial : ∀ n, startCount (s.trace.take n) ≤ closeCount (s.trace.take n) + 1
  serial_of : ∀ bid n, startCountOf bid (s.trace.take n) ≤
    closeCountOf bid (s.trace.take n) + 1

theorem WInv_init : WInv WState.init := by
  constructor <;> simp [WState.init, startCount, closeCount, startCountOf,
    closeCountOf, inFlight, inFlightOf]

/-- The invariant only looks at the chain bookkeeping, the queue, the
in-flight job and the trace. -/
theorem WInv_of_eq (s s' : WState) (h : WInv s)
    (h1 : s'.chainLen = s.chainLen) (h2 : s'.chainDone = s.chainDone)
    (h3 : s'.queue = s.queue) (h4 : s'.running = s.running)
    (h5 : s'.trace = s.trace) : WInv s' := by
  constructor
  · rw [h1, h2, h4]; exact h.len_le
  · rw [h2, h3, h4, h1]; exact h.job_lb
  · rw [h3]; exact h.job_nodup
  · rw [h4, h5]; exact h.count_eq
  · rw [h4, h5]; exact h.count_eq_of
  · rw [h5]; exact h.serial
  · rw [h5]; exact h.serial_of

theorem startCount_append (a b : List Ev) :
    startCount (a ++ b) = startCount a + startCount b :=
  List.countP_append _ _ _

theorem closeCount_append (a b : List Ev) :
    closeCount (a ++ b) = closeCount a + closeCount b :=
  List.countP_append _ _ _

theorem startCountOf_append (bid : Nat) (a b : List Ev) :
    startCountOf bid (a ++ b) = startCountOf bid a + startCountOf bid b :=
  List.countP_append _ _ _

theorem closeCountOf_append (bid : Nat) (a b : List Ev) :
    closeCountOf bid (a ++ b) = closeCountOf bid a + closeCountOf bid b :=
  List.countP_append _ _ _

/-- Extending a trace by one event preserves the global prefix bound
provided the full extended trace satisfies it. -/
theorem serial_take_append_g (t : List Ev) (e : Ev)
    (hser : ∀ n, startCount (t.take n) ≤ closeCount (t.take n) + 1)
    (hlast : startCount (t ++ [e]) ≤ closeCount (t ++ [e]) + 1) :
    ∀ n, startCount ((t ++ [e]).take n) ≤ closeCount ((t ++ [e]).take n) + 1 := by
  intro n
  rcases le_or_lt n t.length with h | h
  · rw [List.take_append_of_le_length h]
    exact hser n
  · rw [List.take_of_length_le (by simp; omega)]
    exact hlast

/-- Extending a trace by one event preserves the per-bundle prefix bound
provided the full extended trace satisfies it. -/
theorem serial_take_append_of (bid : Nat) (t : List Ev) (e : Ev)
    (hser : ∀ n, startCountOf bid (t.take n) ≤ closeCountOf bid (t.take n) + 1)
    (hlast : startCountOf bid (t ++ [e]) ≤ closeCountOf bid (t ++ [e]) + 1) :
    ∀ n, startCountOf bid ((t ++ [e]).take n) ≤
      closeCountOf bid ((t ++ [e]).take n) + 1 := by
  intro n
  rcases le_or_lt n t.length with h | h
  · rw [List.take_append_of_le_length h]
    exact hser n
  · rw [List.take_of_length_le (by simp; omega)]
    exact hlast

/-- Chain positions of queued job callbacks sit between the settled prefix
(plus the in-flight job) and the chain tail. -/
theorem jobPos_bounds (s : WState) (h : WInv s) :
    ∀ x ∈ s.queue.filterMap ChainCont.jobPos?,
      s.chainDone + inFlight s.running ≤ x ∧ x < s.chainLen := by
  intro x hx
  obtain ⟨c, hc, hpos⟩ := List.mem_filterMap.mp hx
  cases c with
  | jobCb b i p =>
    have : p = x := by simpa [ChainCont.jobPos?] using hpos
    subst this
    exact h.job_lb b i p hc
  | rebuildResume b p => simp [ChainCont.jobPos?] at hpos
  | flushResume b p => simp [ChainCont.jobPos?] at hpos

/-- `reBuild` preserves the chain invariant: a new job is appended at the
chain tail together with its resume continuation. -/
theorem WInv_runReBuildCore (bid : Nat) (st1 : RBStatus) (s : WState)
    (h : WInv s) : WInv (runReBuildCore bid st1 s) := by
  simp only [runReBuildCore]
  split
  · exact WInv_of_eq _ _ h rfl rfl rfl rfl rfl
  · split
    · exact WInv_of_eq _ _ h rfl rfl rfl rfl rfl
    · constructor
      · exact Nat.le_succ_of_le h.len_le
      · intro bid' inv' pos' hmem
        rw [List.mem_append] at hmem
        rcases hmem with hold | hnew
        · have := h.job_lb bid' inv' pos' hold
          exact ⟨this.1, Nat.lt_succ_of_lt this.2⟩
        · have hpos : pos' = s.chainLen := by
            simp only [List.mem_cons, List.not_mem_nil, or_false] at hnew
            rcases hnew with h1 | h1
            · exact (ChainCont.jobCb.inj h1).2.2
            · cases h1
          rw [hpos]
          exact ⟨h.len_le, Nat.lt_succ_self _⟩
      · rw [List.filterMap_append]
        have hfm : ∀ inv : List FPath, List.filterMap ChainCont.jobPos?
            [ChainCont.jobCb bid inv s.chainLen,
              ChainCont.rebuildResume bid (s.chainLen + 1)] = [s.chainLen] :=
          fun inv => rfl
        rw [hfm]
        apply List.Nodup.append h.job_nodup (List.nodup_singleton _)
        intro x hx hx'
        have := (jobPos_bounds s h x hx).2
        rw [List.mem_singleton.mp hx'] at this
        exact lt_irrefl _ this
      · exact h.count_eq
      · exact h.count_eq_of
      · exact h.serial
      · exact h.serial_of

theorem WInv_runReBuild (bid : Nat) (files : Option (List FPath)) (s : WState)
    (h : WInv s) : WInv (runReBuild bid files s) :=
  WInv_runReBuildCore bid _ s h

theorem WInv_foldl_runReBuild (batch : List FPath) (bs : List Bundler)
    (s : WState) (h : WInv s) :
    WInv (bs.foldl (fun s b => runReBuild b.bid (some batch) s) s) := by
  induction bs generalizing s with
  | nil => exact h
  | cons b rest ih => exact ih _ (WInv_runReBuild b.bid (some batch) s h)

/-- `findReady` splits the queue around the first settled continuation. -/
theorem findReady_eq (chainDone : Nat) (q : List ChainCont) (c : ChainCont)
    (rest : List ChainCont) (h : findReady chainDone q = some (c, rest)) :
    ∃ l1 l2, q = l1 ++ c :: l2 ∧ rest = l1 ++ l2 ∧ c.pos ≤ chainDone := by
  induction q generalizing rest with
  | nil => simp [findReady] at h
  | cons a as ih =>
    unfold findReady at h
    by_cases hp : a.pos ≤ chainDone
    · rw [if_pos hp] at h
      simp only [Option.some.injEq, Prod.mk.injEq] at h
      obtain ⟨rfl, rfl⟩ := h
      exact ⟨[], as, rfl, rfl, hp⟩
    · rw [if_neg hp] at h
      cases hfr : findReady chainDone as with
      | none => rw [hfr] at h; cases h
      | some pair =>
        obtain ⟨c', rest'⟩ := pair
        rw [hfr] at h
        simp only [Option.some.injEq, Prod.mk.injEq] at h
        obtain ⟨rfl, rfl⟩ := h
        obtain ⟨l1, l2, hq, hr, hcp⟩ := ih _ hfr
        exact ⟨a :: l1, l2, by rw [hq]; rfl, by rw [hr]; rfl, hcp⟩

/-- Dropping one continuation from the queue preserves the invariant. -/
theorem WInv_removeQueue (s : WState) (l1 l2 : List ChainCont) (c : ChainCont)
    (hq : s.queue = l1 ++ c :: l2) (h : WInv s) :
    WInv { s with queue := l1 ++ l2 } := by
  have hsub : (l1 ++ l2).Sublist s.queue := by
    rw [hq]
    exact List.Sublist.append_left (List.sublist_cons_self c l2) l1
  constructor
  · exact h.len_le
  · intro bid inv pos hmem
    exact h.job_lb bid inv pos (hsub.mem hmem)
  · exact h.job_nodup.sublist (hsub.filterMap _)
  · exact h.count_eq
  · exact h.count_eq_of
  · exact h.serial
  · exact h.serial_of

/-- Counting facts for appending a `buildStart` while no job is in flight. -/
theorem counts_start (s : WState) (h : WInv s) (bid : Nat) (inv : List FPath)
    (hrun : s.running = none) :
    startCount (s.trace ++ [Ev.buildStart bid inv]) =
      closeCount (s.trace ++ [Ev.buildStart bid inv]) +
        inFlight (some ⟨bid, inv, .building⟩)
    ∧ (∀ bid', startCountOf bid' (s.trace ++ [Ev.buildStart bid inv]) =
        closeCountOf bid' (s.trace ++ [Ev.buildStart bid inv]) +
          inFlightOf bid' (some ⟨bid, inv, .building⟩))
    ∧ (∀ n, startCount ((s.trace ++ [Ev.buildStart bid inv]).take n) ≤
        closeCount ((s.trace ++ [Ev.buildStart bid inv]).take n) + 1)
    ∧ (∀ bid' n, startCountOf bid' ((s.trace ++ [Ev.buildStart bid inv]).take n) ≤
        closeCountOf bid' ((s.trace ++ [Ev.buildStart bid inv]).take n) + 1) := by
  have hglob := h.count_eq
  rw [hrun] at hglob
  have hz : inFlight (none : Option RunJob) = 0 := rfl
  rw [hz] at hglob
  have h1 : startCount (s.trace ++ [Ev.buildStart bid inv]) =
      closeCount (s.trace ++ [Ev.buildStart bid inv]) +
        inFlight (some ⟨bid, inv, JobPhase.building⟩) := by
    rw [startCount_append, closeCount_append]
    have e1 : startCount [Ev.buildStart bid inv] = 1 := rfl
    have e2 : closeCount [Ev.buildStart bid inv] = 0 := rfl
    have e3 : inFlight (some (⟨bid, inv, JobPhase.building⟩ : RunJob)) = 1 := rfl
    rw [e1, e2, e3]
    omega
  have h2 : ∀ bid', startCountOf bid' (s.trace ++ [Ev.buildStart bid inv]) =
      closeCountOf bid' (s.trace ++ [Ev.buildStart bid inv]) +
        inFlightOf bid' (some ⟨bid, inv, .building⟩) := by
    intro bid'
    have hof := h.count_eq_of bid'
    have hzof : inFlightOf bid' (none : Option RunJob) = 0 := rfl
    rw [hrun, hzof] at hof
    rw [startCountOf_append, closeCountOf_append]
    have e2 : closeCountOf bid' [Ev.buildStart bid inv] = 0 := rfl
    rw [e2]
    cases hb : bid == bid'
    · have e1 : startCountOf bid' [Ev.buildStart bid inv] = 0 := by
        simp [startCountOf, List.countP_cons, hb]
      have e3 : inFlightOf bid' (some (⟨bid, inv, JobPhase.building⟩ : RunJob)) = 0 := by
        simp [inFlightOf, hb]
      rw [e1, e3]
      omega
    · have e1 : startCountOf bid' [Ev.buildStart bid inv] = 1 := by
        simp [startCountOf, List.countP_cons, hb]
      have e3 : inFlightOf bid' (some (⟨bid, inv, JobPhase.building⟩ : RunJob)) = 1 := by
        simp [inFlightOf, hb]
      rw [e1, e3]
      omega
  have hfl : inFlight (some (⟨bid, inv, JobPhase.building⟩ : RunJob)) = 1 := rfl
  have hfl2 : ∀ bid', inFlightOf bid' (some (⟨bid, inv, JobPhase.building⟩ : RunJob)) ≤ 1 := by
    intro bid'
    cases hb : bid == bid' <;> simp [inFlightOf, hb]
  refine ⟨h1, h2, ?_, ?_⟩
  · refine serial_take_append_g _ _ h.serial ?_
    rw [h1, hfl]
  · intro bid'
    refine serial_take_append_of bid' _ _ (h.serial_of bid') ?_
    have := h2 bid'
    have := hfl2 bid'
    omega

/-- Counting facts for appending a cycle-closing event (a `writeEnd` or a
caught error) of the in-flight job. -/
theorem counts_close (s : WState) (h : WInv s) (r : RunJob) (e : Ev)
    (hrun : s.running = some r)
    (he : e = Ev.writeEnd r.bid ∨ e = Ev.errorLogged r.bid) :
    startCount (s.trace ++ [e]) = closeCount (s.trace ++ [e]) + inFlight none
    ∧ (∀ bid', startCountOf bid' (s.trace ++ [e]) =
        closeCountOf bid' (s.trace ++ [e]) + inFlightOf bid' none)
    ∧ (∀ n, startCount ((s.trace ++ [e]).take n) ≤
        closeCount ((s.trace ++ [e]).take n) + 1)
    ∧ (∀ bid' n, startCountOf bid' ((s.trace ++ [e]).take n) ≤
        closeCountOf bid' ((s.trace ++ [e]).take n) + 1) := by
  have hglob := h.count_eq
  rw [hrun] at hglob
  have hz : inFlight (some r) = 1 := rfl
  rw [hz] at hglob
  have e1 : startCount [e] = 0 := by rcases he with rfl | rfl <;> rfl
  have e2 : closeCount [e] = 1 := by rcases he with rfl | rfl <;> rfl
  have hz0 : inFlight (none : Option RunJob) = 0 := rfl
  have h1 : startCount (s.trace ++ [e]) = closeCount (s.trace ++ [e]) + inFlight none := by
    rw [startCount_append, closeCount_append, e1, e2, hz0]
    omega
  have h2 : ∀ bid', startCountOf bid' (s.trace ++ [e]) =
      closeCountOf bid' (s.trace ++ [e]) + inFlightOf bid' none := by
    intro bid'
    have hof := h.count_eq_of bid'
    rw [hrun] at hof
    have e3 : startCountOf bid' [e] = 0 := by rcases he with rfl | rfl <;> rfl
    have hzof : inFlightOf bid' (none : Option RunJob) = 0 := rfl
    rw [startCountOf_append, closeCountOf_append, e3, hzof]
    cases hb : r.bid == bid'
    · have e4 : closeCountOf bid' [e] = 0 := by
        rcases he with rfl | rfl <;> simp [closeCountOf, List.countP_cons, hb]
      have e5 : inFlightOf bid' (some r) = 0 := by simp [inFlightOf, hb]
      rw [e5] at hof
      rw [e4]
      omega
    · have e4 : closeCountOf bid' [e] = 1 := by
        rcases he with rfl | rfl <;> simp [closeCountOf, List.countP_cons, hb]
      have e5 : inFlightOf bid' (some r) = 1 := by simp [inFlightOf, hb]
      rw [e5] at hof
      rw [e4]
      omega
  refine ⟨h1, h2, ?_, ?_⟩
  · refine serial_take_append_g _ _ h.serial ?_
    rw [h1, hz0]
    omega
  · intro bid'
    refine serial_take_append_of bid' _ _ (h.serial_of bid') ?_
    have := h2 bid'
    have hzof : inFlightOf bid' (none : Option RunJob) = 0 := rfl
    omega

/-- Counting facts for appending a neutral event (`buildEnd`). -/
theorem counts_neutral (s : WState) (h : WInv s) (bid : Nat) :
    startCount (s.trace ++ [Ev.buildEnd bid]) = startCount s.trace
    ∧ closeCount (s.trace ++ [Ev.buildEnd bid]) = closeCount s.trace
    ∧ (∀ bid', startCountOf bid' (s.trace ++ [Ev.buildEnd bid]) =
        startCountOf bid' s.trace)
    ∧ (∀ bid', closeCountOf bid' (s.trace ++ [Ev.buildEnd bid]) =
        closeCountOf bid' s.trace)
    ∧ (∀ n, startCount ((s.trace ++ [Ev.buildEnd bid]).take n) ≤
        closeCount ((s.trace ++ [Ev.buildEnd bid]).take n) + 1)
    ∧ (∀ bid' n, startCountOf bid' ((s.trace ++ [Ev.buildEnd bid]).take n) ≤
        closeCountOf bid' ((s.trace ++ [Ev.buildEnd bid]).take n) + 1) := by
  have e1 : startCount [Ev.buildEnd bid] = 0 := rfl
  have e2 : closeCount [Ev.buildEnd bid] = 0 := rfl
  have e3 : ∀ bid', startCountOf bid' [Ev.buildEnd bid] = 0 := fun _ => rfl
  have e4 : ∀ bid', closeCountOf bid' [Ev.buildEnd bid] = 0 := fun _ => rfl
  have k1 : startCount (s.trace ++ [Ev.buildEnd bid]) = startCount s.trace := by
    rw [startCount_append, e1, Nat.add_zero]
  have k2 : closeCount (s.trace ++ [Ev.buildEnd bid]) = closeCount s.trace := by
    rw [closeCount_append, e2, Nat.add_zero]
  have k3 : ∀ bid', startCountOf bid' (s.trace ++ [Ev.buildEnd bid]) =
      startCountOf bid' s.trace := fun bid' => by
    rw [startCountOf_append, e3 bid', Nat.add_zero]
  have k4 : ∀ bid', closeCountOf bid' (s.trace ++ [Ev.buildEnd bid]) =
      closeCountOf bid' s.trace := fun bid' => by
    rw [closeCountOf_append, e4 bid', Nat.add_zero]
  refine ⟨k1, k2, k3, k4, ?_, ?_⟩
  · refine serial_take_append_g _ _ h.serial ?_
    have hg := h.count_eq
    have hb : inFlight s.running ≤ 1 := by
      cases s.running <;> simp [inFlight]
    rw [k1, k2]
    omega
  · intro bid'
    refine serial_take_append_of bid' _ _ (h.serial_of bid') ?_
    have hg := h.count_eq_of bid'
    have hb : inFlightOf bid' s.running ≤ 1 := by
      cases hr : s.running with
      | none => simp [inFlightOf]
      | some r => cases hb2 : r.bid == bid' <;> simp [inFlightOf, hb2]
    rw [k3 bid', k4 bid']
    omega

/-- Resuming `reBuild` after its `await` preserves the invariant. -/
theorem WInv_processCont_resume (rp : FPath → FPath) (bl : List Bundler)
    (bid pos : Nat) (s : WState) (h : WInv s) :
    WInv (processCont rp bl (.rebuildResume bid pos) s) := by
  simp only [processCont]
  exact WInv_runReBuild bid none _ (WInv_of_eq _ _ h rfl rfl rfl rfl rfl)

/-- Running the debounce-flush continuation preserves the invariant. -/
theorem WInv_processCont_flush (rp : FPath → FPath) (bl : List Bundler)
    (batch : List FPath) (pos : Nat) (s : WState) (h : WInv s) :
    WInv (processCont rp bl (.flushResume batch pos) s) := by
  simp only [processCont]
  have hmid : WInv { s with flushes := s.flushes ++ [batch] } :=
    WInv_of_eq _ _ h rfl rfl rfl rfl rfl
  by_cases hf : (filterChangedBundles rp bl batch).isEmpty
  · rw [if_pos hf]
    exact hmid
  · rw [if_neg hf]
    exact WInv_foldl_runReBuild batch _ _ hmid

/-- Starting a settled job callback preserves the invariant: the invariant
forces the ready job to sit exactly at the settled chain tail, so no other
job is in flight when it starts. -/
theorem WInv_start_job (rp : FPath → FPath) (bl : List Bundler)
    (bid : Nat) (inv : List FPath) (pos : Nat) (s : WState)
    (l1 l2 : List ChainCont)
    (hq : s.queue = l1 ++ ChainCont.jobCb bid inv pos :: l2)
    (h : WInv s) (hcp : pos ≤ s.chainDone) :
    WInv (processCont rp bl (.jobCb bid inv pos) { s with queue := l1 ++ l2 }) := by
  have hmemq : ChainCont.jobCb bid inv pos ∈ s.queue := by
    rw [hq]
    exact List.mem_append_right _ (List.mem_cons_self _ _)
  obtain ⟨hb1, hb2⟩ := h.job_lb bid inv pos hmemq
  have hrun : s.running = none := by
    cases hr : s.running with
    | none => rfl
    | some r =>
      exfalso
      rw [hr] at hb1
      have h1 : inFlight (some r) = 1 := rfl
      rw [h1] at hb1
      omega
  have hIF : inFlight s.running = 0 := by rw [hrun]; rfl
  rw [hIF] at hb1
  have hnd := h.job_nodup
  rw [hq, List.filterMap_append] at hnd
  have hfmc : List.filterMap ChainCont.jobPos? (ChainCont.jobCb bid inv pos :: l2)
      = pos :: List.filterMap ChainCont.jobPos? l2 := by
    simp [List.filterMap_cons, ChainCont.jobPos?]
  rw [hfmc] at hnd
  have hdisj := List.disjoint_of_nodup_append hnd
  have hposA : pos ∉ List.filterMap ChainCont.jobPos? l1 := fun hmem =>
    hdisj hmem (List.mem_cons_self _ _)
  have hposB : pos ∉ List.filterMap ChainCont.jobPos? l2 :=
    (List.nodup_cons.mp (List.nodup_append.mp hnd).2.1).1
  simp only [processCont]
  have hcounts := counts_start s h bid inv hrun
  have hfl1 : inFlight (some (⟨bid, inv, JobPhase.building⟩ : RunJob)) = 1 := rfl
  constructor
  · show s.chainDone + inFlight (some ⟨bid, inv, .building⟩) ≤ s.chainLen
    rw [hfl1]
    omega
  · intro bid' inv' pos' hmem
    have hmemq' : ChainCont.jobCb bid' inv' pos' ∈ s.queue := by
      rw [hq]
      rcases List.mem_append.mp hmem with h1 | h1
      · exact List.mem_append_left _ h1
      · exact List.mem_append_right _ (List.mem_cons_of_mem _ h1)
    obtain ⟨hc1, hc2⟩ := h.job_lb bid' inv' pos' hmemq'
    rw [hIF] at hc1
    have hne : pos' ≠ pos := by
      intro hcontra
      subst hcontra
      rcases List.mem_append.mp hmem with h1 | h1
      · exact hposA (List.mem_filterMap.mpr ⟨_, h1, rfl⟩)
      · exact hposB (List.mem_filterMap.mpr ⟨_, h1, rfl⟩)
    show s.chainDone + inFlight (some ⟨bid, inv, .building⟩) ≤ pos' ∧ pos' < s.chainLen
    rw [hfl1]
    omega
  · show (List.filterMap ChainCont.jobPos? (l1 ++ l2)).Nodup
    rw [List.filterMap_append]
    exact hnd.sublist (List.Sublist.append_left (List.sublist_cons_self pos _) _)
  · exact hcounts.1
  · exact hcounts.2.1
  · exact hcounts.2.2.1
  · exact hcounts.2.2.2

/-- The micro-task drain preserves the invariant. -/
theorem WInv_drainLoop (rp : FPath → FPath) (bl : List Bundler)
    (fuel : Nat) (s : WState) (h : WInv s) :
    WInv (drainLoop rp bl fuel s) := by
  induction fuel generalizing s with
  | zero => exact h
  | succ n ih =>
    simp only [drainLoop]
    cases hfr : findReady s.chainDone s.queue with
    | none => exact h
    | some pair =>
      obtain ⟨c, rest⟩ := pair
      apply ih
      obtain ⟨l1, l2, hq, hrest, hcp⟩ := findReady_eq _ _ _ _ hfr
      subst hrest
      cases c with
      | jobCb bid inv pos =>
        exact WInv_start_job rp bl bid inv pos s l1 l2 hq h
          (by simpa [ChainCont.pos] using hcp)
      | rebuildResume bid pos =>
        exact WInv_processCont_resume rp bl bid pos _ (WInv_removeQueue s l1 l2 _ hq h)
      | flushResume batch pos =>
        exact WInv_processCont_flush rp bl batch pos _ (WInv_removeQueue s l1 l2 _ hq h)

theorem WInv_drain (rp : FPath → FPath) (bl : List Bundler) (s : WState)
    (h : WInv s) : WInv (drain rp bl s) :=
  WInv_drainLoop rp bl _ s h

/-- Completing the in-flight job (successfully or through the `catch`)
preserves the invariant. -/
theorem WInv_completeJob (rp : FPath → FPath) (bl : List Bundler)
    (r : RunJob) (ok : Bool) (s : WState)
    (h : WInv s) (hrun : s.running = some r) :
    WInv (completeJob rp bl r ok s) := by
  unfold completeJob
  apply WInv_drain
  have hc := counts_close s h r (if ok then Ev.writeEnd r.bid else Ev.errorLogged r.bid)
    hrun (by cases ok <;> simp)
  have h0 : inFlight (none : Option RunJob) = 0 := rfl
  have h1 : inFlight (some r) = 1 := rfl
  have hl := h.len_le
  rw [hrun, h1] at hl
  constructor
  · show s.chainDone + 1 + inFlight none ≤ s.chainLen
    rw [h0]
    omega
  · intro bid inv pos hmem
    obtain ⟨hb1, hb2⟩ := h.job_lb bid inv pos hmem
    rw [hrun, h1] at hb1
    show s.chainDone + 1 + inFlight none ≤ pos ∧ pos < s.chainLen
    rw [h0]
    omega
  · exact h.job_nodup
  · exact hc.1
  · exact hc.2.1
  · exact hc.2.2.1
  · exact hc.2.2.2

/-- The write phase keeps the same in-flight bundle. -/
theorem inFlightOf_phase (bid : Nat) (r : RunJob) (p : JobPhase) :
    inFlightOf bid (some { r with phase := p }) = inFlightOf bid (some r) := rfl

/-- A successful `bundle.build` moves the in-flight job to its write phase
and only appends the neutral `buildEnd` event. -/
theorem WInv_buildEnd (r : RunJob) (s : WState) (h : WInv s)
    (hr : s.running = some r) :
    WInv { s with running := some { r with phase := .writing },
                  trace := s.trace ++ [Ev.buildEnd r.bid] } := by
  have hn := counts_neutral s h r.bid
  have h1 : inFlight (some r) = 1 := rfl
  have h2 : inFlight (some { r with phase := JobPhase.writing }) = 1 := rfl
  constructor
  · show s.chainDone + inFlight (some { r with phase := .writing }) ≤ s.chainLen
    have hl := h.len_le
    rw [hr, h1] at hl
    rw [h2]
    omega
  · intro bid inv pos hmem
    obtain ⟨hb1, hb2⟩ := h.job_lb bid inv pos hmem
    rw [hr, h1] at hb1
    show s.chainDone + inFlight (some { r with phase := .writing }) ≤ pos
      ∧ pos < s.chainLen
    rw [h2]
    omega
  · exact h.job_nodup
  · show startCount (s.trace ++ [Ev.buildEnd r.bid]) =
      closeCount (s.trace ++ [Ev.buildEnd r.bid]) +
        inFlight (some { r with phase := .writing })
    rw [hn.1, hn.2.1, h2]
    have hg := h.count_eq
    rw [hr, h1] at hg
    exact hg
  · intro bid
    show startCountOf bid (s.trace ++ [Ev.buildEnd r.bid]) =
      closeCountOf bid (s.trace ++ [Ev.buildEnd r.bid]) +
        inFlightOf bid (some { r with phase := .writing })
    rw [hn.2.2.1 bid, hn.2.2.2.1 bid, inFlightOf_phase]
    have := h.count_eq_of bid
    rw [hr] at this
    exact this
  · exact hn.2.2.2.2.1
  · exact hn.2.2.2.2.2

/-- Every external step preserves the invariant. -/
theorem WInv_stepCmd (rp : FPath → FPath) (bl : List Bundler) (c : WCmd)
    (s : WState) (h : WInv s) : WInv (stepCmd rp bl c s) := by
  cases c with
  | change p =>
    simp only [stepCmd]
    by_cases hig : watchIgnore rp bl p
    · rw [if_pos hig]
      exact h
    · rw [if_neg hig]
      exact WInv_of_eq _ _ h rfl rfl rfl rfl rfl
  | timerFire =>
    simp only [stepCmd]
    by_cases ht : s.timerOn
    · rw [if_pos ht]
      apply WInv_drain
      constructor
      · exact h.len_le
      · intro bid inv pos hmem
        rcases List.mem_append.mp hmem with h1 | h1
        · exact h.job_lb bid inv pos h1
        · rcases List.mem_cons.mp h1 with h2 | h2
          · cases h2
          · cases h2
      · show (List.filterMap ChainCont.jobPos?
          (s.queue ++ [ChainCont.flushResume s.collected s.chainLen])).Nodup
        rw [List.filterMap_append]
        have : List.filterMap ChainCont.jobPos?
            [ChainCont.flushResume s.collected s.chainLen] = [] := rfl
        rw [this, List.append_nil]
        exact h.job_nodup
      · exact h.count_eq
      · exact h.count_eq_of
      · exact h.serial
      · exact h.serial_of
    · rw [if_neg ht]
      exact h
  | ioStep ok =>
    cases hr : s.running with
    | none =>
      have hgoal : stepCmd rp bl (.ioStep ok) s = s := by
        simp [stepCmd, hr]
      rw [hgoal]
      exact h
    | some r =>
      cases hp : r.phase with
      | building =>
        cases ok with
        | true =>
          have hgoal : stepCmd rp bl (.ioStep true) s =
              { s with running := some { r with phase := .writing },
                       trace := s.trace ++ [Ev.buildEnd r.bid] } := by
            simp [stepCmd, hr, hp]
          rw [hgoal]
          exact WInv_buildEnd r s h hr
        | false =>
          have hgoal : stepCmd rp bl (.ioStep false) s = completeJob rp bl r false s := by
            simp [stepCmd, hr, hp]
          rw [hgoal]
          exact WInv_completeJob rp bl r false s h hr
      | writing =>
        have hgoal : stepCmd rp bl (.ioStep ok) s = completeJob rp bl r ok s := by
          simp [stepCmd, hr, hp]
        rw [hgoal]
        exact WInv_completeJob rp bl r ok s h hr

/-- Every reachable state of a watch session satisfies the invariant. -/
theorem WInv_runCmds (rp : FPath → FPath) (bl : List Bundler)
    (cmds : List WCmd) (s : WState) (h : WInv s) :
    WInv (runCmds rp bl cmds s) := by
  induction cmds generalizing s with
  | nil => exact h
  | cons c rest ih => exact ih _ (WInv_stepCmd rp bl c s h)

/-! ## C1: serialization of rebuild cycles -/

/-- C1 amended: rebuild cycles are globally serialized.  In every prefix of
every watch-session trace, the number of started cycles exceeds the number
of finished ones by at most one — across all bundles together, hence also
within each single bundle.  This proves the per-bundle mutual exclusion half
of the claim and replaces the cross-bundle independence half: the shared
`promise` chain admits at most one in-flight `build()+write()` cycle in the
whole session at any time. -/
theorem C1_thm (realpath : FPath → FPath) (bundlers : List Bundler)
    (cmds : List WCmd) :
    (∀ n, startCount ((runCmds realpath bundlers cmds WState.init).trace.take n) ≤
      closeCount ((runCmds realpath bundlers cmds WState.init).trace.take n) + 1)
    ∧ (∀ bid n,
      startCountOf bid ((runCmds realpath bundlers cmds WState.init).trace.take n) ≤
        closeCountOf bid ((runCmds realpath bundlers cmds WState.init).trace.take n) + 1) := by
  have h := WInv_runCmds realpath bundlers cmds WState.init WInv_init
  exact ⟨h.serial, h.serial_of⟩

/-- C1 counterexample: one change batch selects bundles `0` and `1`; after
the flush, bundle `0`'s job is in flight and bundle `1`'s job callback waits
for chain position 1 — while bundle `0` is building (`chainDone = 0`),
`findReady` offers no continuation at all, so bundle `1` cannot start; in
the completed run, bundle `1`'s cycle begins only after bundle `0`'s
`write()` has ended.  This refutes "a rebuild cycle of B never waits for an
in-flight rebuild cycle of A". -/
theorem C1_cex :
    (runCmds (fun p => p)
      [⟨0, some ["/src/shared.js"]⟩, ⟨1, some ["/src/shared.js"]⟩]
      [.change "/src/shared.js", .timerFire] WState.init).running
        = some ⟨0, ["/src/shared.js"], .building⟩
    ∧ (runCmds (fun p => p)
      [⟨0, some ["/src/shared.js"]⟩, ⟨1, some ["/src/shared.js"]⟩]
      [.change "/src/shared.js", .timerFire] WState.init).queue
        = [.rebuildResume 0 1, .jobCb 1 ["/src/shared.js"] 1, .rebuildResume 1 2]
    ∧ (runCmds (fun p => p)
      [⟨0, some ["/src/shared.js"]⟩, ⟨1, some ["/src/shared.js"]⟩]
      [.change "/src/shared.js", .timerFire] WState.init).chainDone = 0
    ∧ findReady 0
        [.rebuildResume 0 1, .jobCb 1 ["/src/shared.js"] 1, .rebuildResume 1 2] = none
    ∧ (runCmds (fun p => p)
      [⟨0, some ["/src/shared.js"]⟩, ⟨1, some ["/src/shared.js"]⟩]
      [.change "/src/shared.js", .timerFire,
        .ioStep true, .ioStep true, .ioStep true, .ioStep true] WState.init).trace
        = [.buildStart 0 ["/src/shared.js"], .buildEnd 0, .writeEnd 0,
            .buildStart 1 ["/src/shared.js"], .buildEnd 1, .writeEnd 1] := by
  refine ⟨?_, ?_, ?_, ?_, ?_⟩ <;> decide

/-! ## C2: accounting of rebuild cycles against flushed batches -/

/-- Queued (appended but not yet started) job callbacks of one bundle. -/
def queuedJobsOf (bid : Nat) (q : List ChainCont) : Nat :=
  q.countP fun c => match c with
    | .jobCb b _ _ => b == bid
    | _ => false

/-- Rebuild cycles of one bundle that the session has committed to: cycles
already started (in the trace) plus job callbacks still waiting on the
chain. -/
def cyclesOf (bid : Nat) (s : WState) : Nat :=
  startCountOf bid s.trace + queuedJobsOf bid s.queue

/-- How many rebuild cycles the processed flush batches owe one bundle: one
cycle per processed batch per bundler selected by `filterChangedBundles`
for that batch. -/
def flushWeight (realpath : FPath → FPath) (bl : List Bundler) (bid : Nat)
    (batches : List (List FPath)) : Nat :=
  (batches.map fun batch =>
    (filterChangedBundles realpath bl batch).countP fun b => b.bid == bid).sum

/-- Statuses at rest hold no pending invalidation (the source moves the
invalidation list into the local `invalidate` variable and resets the field
to `[]` inside the same synchronous call). -/
def StsOk (sts : List (Nat × RBStatus)) : Prop :=
  ∀ e ∈ sts, e.2.invalidate = none ∨ e.2.invalidate = some []

theorem StsOk_rbGet (sts : List (Nat × RBStatus)) (b : Nat) (h : StsOk sts) :
    (rbGet sts b).invalidate = none ∨ (rbGet sts b).invalidate = some [] := by
  unfold rbGet
  cases hf : sts.find? fun e => e.1 == b with
  | none => exact Or.inl rfl
  | some e => exact h e (List.mem_of_find?_eq_some hf)

theorem StsOk_rbSet (sts : List (Nat × RBStatus)) (b : Nat) (st : RBStatus)
    (h : StsOk sts) (hst : st.invalidate = none ∨ st.invalidate = some []) :
    StsOk (rbSet sts b st) := by
  intro e he
  unfold rbSet at he
  rcases List.mem_cons.mp he with rfl | hmem
  · exact hst
  · exact h e (List.mem_of_mem_filter hmem)

/-- Setting a bundle's status twice keeps only the second record. -/
theorem rbSet_rbSet (sts : List (Nat × RBStatus)) (b : Nat) (st1 st2 : RBStatus) :
    rbSet (rbSet sts b st1) b st2 = rbSet sts b st2 := by
  unfold rbSet
  simp only [List.filter_cons]
  have hb : ((b, st1).1 != b) = false := by simp
  rw [hb]
  simp only [Bool.false_eq_true, if_false, List.filter_filter]
  congr 1
  apply List.filter_congr
  intro e _
  cases h : e.1 == b <;> simp [bne]

/-- The full effect of `reBuild(bundle, batch)` for a non-empty batch. -/
theorem runReBuild_some_effect (b : Nat) (batch : List FPath) (hbne : batch ≠ [])
    (s : WState) :
    runReBuild b (some batch) s =
      { s with
        statuses := rbSet s.statuses b ⟨true, some []⟩
        chainLen := s.chainLen + 1
        queue := s.queue ++
          [.jobCb b batch s.chainLen, .rebuildResume b (s.chainLen + 1)] } := by
  unfold runReBuild runReBuildCore
  have hne : batch.isEmpty = false := by
    cases batch with
    | nil => exact absurd rfl hbne
    | cons a l => rfl
  simp only [hne, Bool.false_eq_true, if_false, rbSet_rbSet]

/-- The effect of the tail call `reBuild(bundle)` when the status holds no
pending invalidation: nothing is scheduled. -/
theorem runReBuild_none_effect (b : Nat) (s : WState)
    (hsts : (rbGet s.statuses b).invalidate = none
      ∨ (rbGet s.statuses b).invalidate = some []) :
    runReBuild b none s =
      { s with statuses := rbSet s.statuses b (rbGet s.statuses b) } := by
  unfold runReBuild runReBuildCore
  rcases hsts with h | h <;> simp [h]

theorem rbGet_rbSet (sts : List (Nat × RBStatus)) (b : Nat) (st : RBStatus) :
    rbGet (rbSet sts b st) b = st := by
  unfold rbGet rbSet
  simp [List.find?_cons]

theorem queuedJobsOf_append (bid : Nat) (q1 q2 : List ChainCont) :
    queuedJobsOf bid (q1 ++ q2) = queuedJobsOf bid q1 + queuedJobsOf bid q2 :=
  List.countP_append _ _ _

/-- The invariant backing the cycle-accounting law: the committed rebuild
cycles of a bundle always match the weight of the processed flush batches,
statuses at rest carry no pending invalidation, queued flushes carry
non-empty batches, and a pending debounce timer implies a non-empty
accumulation buffer. -/
structure FlushInv (realpath : FPath → FPath) (bl : List Bundler) (bid : Nat)
    (s : WState) : Prop where
  cycles_eq : cyclesOf bid s = flushWeight realpath bl bid s.flushes
  sts_ok : StsOk s.statuses
  flush_ne : ∀ batch pos, ChainCont.flushResume batch pos ∈ s.queue → batch ≠ []
  coll_ne : s.timerOn = true → s.collected ≠ []

theorem FlushInv_init (realpath : FPath → FPath) (bl : List Bundler) (bid : Nat) :
    FlushInv realpath bl bid WState.init := by
  constructor
  · rfl
  · intro e he
    cases he
  · intro batch pos hmem
    cases hmem
  · intro h
    cases h

/-- Cumulative effect of scheduling a rebuild for every affected bundler. -/
theorem foldl_runReBuild_effect (bid : Nat) (batch : List FPath)
    (hbne : batch ≠ []) (bs : List Bundler) (s : WState) :
    (bs.foldl (fun s b => runReBuild b.bid (some batch) s) s).trace = s.trace
    ∧ (bs.foldl (fun s b => runReBuild b.bid (some batch) s) s).flushes = s.flushes
    ∧ (bs.foldl (fun s b => runReBuild b.bid (some batch) s) s).collected = s.collected
    ∧ (bs.foldl (fun s b => runReBuild b.bid (some batch) s) s).timerOn = s.timerOn
    ∧ queuedJobsOf bid (bs.foldl (fun s b => runReBuild b.bid (some batch) s) s).queue =
        queuedJobsOf bid s.queue + bs.countP (fun b => b.bid == bid)
    ∧ (∀ batch2 pos, ChainCont.flushResume batch2 pos ∈
        (bs.foldl (fun s b => runReBuild b.bid (some batch) s) s).queue →
        ChainCont.flushResume batch2 pos ∈ s.queue)
    ∧ (StsOk s.statuses →
        StsOk (bs.foldl (fun s b => runReBuild b.bid (some batch) s) s).statuses) := by
  induction bs generalizing s with
  | nil =>
    refine ⟨rfl, rfl, rfl, rfl, ?_, fun _ _ h => h, id⟩
    simp [List.countP_nil]
  | cons b rest ih =>
    simp only [List.foldl_cons]
    have heff := runReBuild_some_effect b.bid batch hbne s
    have ih' := ih (runReBuild b.bid (some batch) s)
    obtain ⟨i1, i2, i3, i4, i5, i6, i7⟩ := ih'
    have hq : (runReBuild b.bid (some batch) s).queue =
        s.queue ++ [.jobCb b.bid batch s.chainLen,
          .rebuildResume b.bid (s.chainLen + 1)] := by rw [heff]
    have hcnt : queuedJobsOf bid
        [ChainCont.jobCb b.bid batch s.chainLen,
          ChainCont.rebuildResume b.bid (s.chainLen + 1)] =
        if b.bid == bid then 1 else 0 := by
      cases hb : b.bid == bid <;>
        simp [queuedJobsOf, List.countP_cons, List.countP_nil, hb]
    refine ⟨?_, ?_, ?_, ?_, ?_, ?_, ?_⟩
    · rw [i1, heff]
    · rw [i2, heff]
    · rw [i3, heff]
    · rw [i4, heff]
    · rw [i5, hq, queuedJobsOf_append, hcnt, List.countP_cons]
      cases hb : b.bid == bid <;> simp [hb] <;> omega
    · intro batch2 pos hmem
      have := i6 batch2 pos hmem
      rw [hq] at this
      rcases List.mem_append.mp this with h1 | h1
      · exact h1
      · rcases List.mem_cons.mp h1 with h2 | h2
        · cases h2
        · rcases List.mem_cons.mp h2 with h3 | h3
          · cases h3
          · cases h3
    · intro hsts
      apply i7
      rw [heff]
      exact StsOk_rbSet s.statuses b.bid ⟨true, some []⟩ hsts (Or.inr rfl)

/-- The micro-task drain preserves the cycle accounting. -/
theorem FlushInv_drainLoop (realpath : FPath → FPath) (bl : List Bundler)
    (bid : Nat) (fuel : Nat) (s : WState)
    (h : FlushInv realpath bl bid s) :
    FlushInv realpath bl bid (drainLoop realpath bl fuel s) := by
  induction fuel generalizing s with
  | zero => exact h
  | succ n ih =>
    simp only [drainLoop]
    cases hfr : findReady s.chainDone s.queue with
    | none => exact h
    | some pair =>
      obtain ⟨c, rest⟩ := pair
      apply ih
      obtain ⟨l1, l2, hq, hrest, _hcp⟩ := findReady_eq _ _ _ _ hfr
      subst hrest
      cases c with
      | jobCb b inv pos =>
        have hq' : queuedJobsOf bid s.queue =
            queuedJobsOf bid (l1 ++ l2) + (if b == bid then 1 else 0) := by
          rw [hq, queuedJobsOf_append, queuedJobsOf_append]
          have : queuedJobsOf bid (ChainCont.jobCb b inv pos :: l2) =
              (if b == bid then 1 else 0) + queuedJobsOf bid l2 := by
            cases hb : b == bid <;>
              simp [queuedJobsOf, List.countP_cons, hb] <;> omega
          rw [this]
          omega
        have hst : startCountOf bid (s.trace ++ [Ev.buildStart b inv]) =
            startCountOf bid s.trace + (if b == bid then 1 else 0) := by
          rw [startCountOf_append]
          cases hb : b == bid <;>
            simp [startCountOf, List.countP_cons, List.countP_nil, hb]
        constructor
        · show startCountOf bid (s.trace ++ [Ev.buildStart b inv]) +
            queuedJobsOf bid (l1 ++ l2) = flushWeight realpath bl bid s.flushes
          have hc := h.cycles_eq
          unfold cyclesOf at hc
          rw [hst]
          omega
        · exact h.sts_ok
        · intro batch2 pos2 hmem
          refine h.flush_ne batch2 pos2 ?_
          rw [hq]
          rcases List.mem_append.mp hmem with h1 | h1
          · exact List.mem_append_left _ h1
          · exact List.mem_append_right _ (List.mem_cons_of_mem _ h1)
        · exact h.coll_ne
      | rebuildResume b pos =>
        simp only [processCont]
        have hsts1 : StsOk (rbSet s.statuses b
            { rbGet s.statuses b with running := false }) := by
          apply StsOk_rbSet _ _ _ h.sts_ok
          exact StsOk_rbGet s.statuses b h.sts_ok
        have hget : (rbGet (rbSet s.statuses b
            { rbGet s.statuses b with running := false }) b).invalidate = none ∨
            (rbGet (rbSet s.statuses b
              { rbGet s.statuses b with running := false }) b).invalidate = some [] := by
          rw [rbGet_rbSet]
          exact StsOk_rbGet s.statuses b h.sts_ok
        rw [runReBuild_none_effect b _ hget]
        have hcnt : queuedJobsOf bid s.queue = queuedJobsOf bid (l1 ++ l2) := by
          rw [hq, queuedJobsOf_append, queuedJobsOf_append]
          have : queuedJobsOf bid (ChainCont.rebuildResume b pos :: l2) =
              queuedJobsOf bid l2 := by
            simp [queuedJobsOf, List.countP_cons]
          rw [this]
        constructor
        · show cyclesOf bid _ = flushWeight realpath bl bid s.flushes
          have hc := h.cycles_eq
          unfold cyclesOf at hc ⊢
          simp only []
          rw [← hcnt]
          exact hc
        · exact StsOk_rbSet _ _ _ hsts1 (by rw [rbGet_rbSet]; exact StsOk_rbGet s.statuses b h.sts_ok)
        · intro batch2 pos2 hmem
          refine h.flush_ne batch2 pos2 ?_
          rw [hq]
          rcases List.mem_append.mp hmem with h1 | h1
          · exact List.mem_append_left _ h1
          · exact List.mem_append_right _ (List.mem_cons_of_mem _ h1)
        · exact h.coll_ne
      | flushResume batch pos =>
        have hbne : batch ≠ [] := by
          refine h.flush_ne batch pos ?_
          rw [hq]
          exact List.mem_append_right _ (List.mem_cons_self _ _)
        simp only [processCont]
        have hw : flushWeight realpath bl bid (s.flushes ++ [batch]) =
            flushWeight realpath bl bid s.flushes +
              (filterChangedBundles realpath bl batch).countP (fun b => b.bid == bid) := by
          unfold flushWeight
          rw [List.map_append, List.sum_append]
          simp
        have hcnt : queuedJobsOf bid s.queue = queuedJobsOf bid (l1 ++ l2) := by
          rw [hq, queuedJobsOf_append, queuedJobsOf_append]
          have : queuedJobsOf bid (ChainCont.flushResume batch pos :: l2) =
              queuedJobsOf bid l2 := by
            simp [queuedJobsOf, List.countP_cons]
          rw [this]
        have hflush2 : ∀ batch2 pos2,
            ChainCont.flushResume batch2 pos2 ∈ l1 ++ l2 → batch2 ≠ [] := by
          intro batch2 pos2 hmem
          refine h.flush_ne batch2 pos2 ?_
          rw [hq]
          rcases List.mem_append.mp hmem with h1 | h1
          · exact List.mem_append_left _ h1
          · exact List.mem_append_right _ (List.mem_cons_of_mem _ h1)
        by_cases hf : (filterChangedBundles realpath bl batch).isEmpty
        · rw [if_pos hf]
          have hz : (filterChangedBundles realpath bl batch).countP
              (fun b => b.bid == bid) = 0 := by
            rw [List.isEmpty_iff.mp hf]
            rfl
          constructor
          · show cyclesOf bid _ = flushWeight realpath bl bid (s.flushes ++ [batch])
            have hc := h.cycles_eq
            unfold cyclesOf at hc ⊢
            simp only []
            rw [hw, hz, ← hcnt]
            omega
          · exact h.sts_ok
          · exact hflush2
          · exact h.coll_ne
        · rw [if_neg hf]
          have heff := foldl_runReBuild_effect bid batch hbne
            (filterChangedBundles realpath bl batch)
            { s with queue := l1 ++ l2, flushes := s.flushes ++ [batch] }
          obtain ⟨e1, e2, e3, e4, e5, e6, e7⟩ := heff
          constructor
          · show cyclesOf bid _ = flushWeight realpath bl bid _
            unfold cyclesOf
            rw [e1, e2, e5]
            show startCountOf bid s.trace + (queuedJobsOf bid (l1 ++ l2) + _) =
              flushWeight realpath bl bid (s.flushes ++ [batch])
            have hc := h.cycles_eq
            unfold cyclesOf at hc
            rw [hw, ← hcnt]
            omega
          · exact e7 h.sts_ok
          · intro batch2 pos2 hmem
            exact hflush2 batch2 pos2 (e6 batch2 pos2 hmem)
          · intro ht
            rw [e4] at ht
            have := h.coll_ne ht
            rw [e3]
            exact this

/-- Completing the in-flight job preserves the cycle accounting: the closing
event touches no `buildStart` count and no queued job. -/
theorem FlushInv_completeJob (realpath : FPath → FPath) (bl : List Bundler)
    (bid : Nat) (r : RunJob) (ok : Bool) (s : WState)
    (h : FlushInv realpath bl bid s) :
    FlushInv realpath bl bid (completeJob realpath bl r ok s) := by
  unfold completeJob
  apply FlushInv_drainLoop
  have hst : startCountOf bid
      (s.trace ++ [if ok then Ev.writeEnd r.bid else Ev.errorLogged r.bid]) =
      startCountOf bid s.trace := by
    rw [startCountOf_append]
    cases ok <;> simp [startCountOf, List.countP_cons, List.countP_nil]
  constructor
  · show cyclesOf bid _ = flushWeight realpath bl bid s.flushes
    unfold cyclesOf
    simp only []
    rw [hst]
    exact h.cycles_eq
  · exact h.sts_ok
  · exact h.flush_ne
  · exact h.coll_ne

/-- Every external step preserves the cycle accounting. -/
theorem FlushInv_stepCmd (realpath : FPath → FPath) (bl : List Bundler)
    (bid : Nat) (c : WCmd) (s : WState)
    (h : FlushInv realpath bl bid s) :
    FlushInv realpath bl bid (stepCmd realpath bl c s) := by
  cases c with
  | change p =>
    simp only [stepCmd]
    by_cases hig : watchIgnore realpath bl p
    · rw [if_pos hig]
      exact h
    · rw [if_neg hig]
      constructor
      · exact h.cycles_eq
      · exact h.sts_ok
      · exact h.flush_ne
      · intro _
        simp
  | timerFire =>
    simp only [stepCmd]
    by_cases ht : s.timerOn
    · rw [if_pos ht]
      apply FlushInv_drainLoop
      constructor
      · show cyclesOf bid _ = flushWeight realpath bl bid s.flushes
        unfold cyclesOf
        simp only []
        rw [queuedJobsOf_append]
        have : queuedJobsOf bid [ChainCont.flushResume s.collected s.chainLen] = 0 := rfl
        rw [this]
        have hc := h.cycles_eq
        unfold cyclesOf at hc
        omega
      · exact h.sts_ok
      · intro batch2 pos2 hmem
        rcases List.mem_append.mp hmem with h1 | h1
        · exact h.flush_ne batch2 pos2 h1
        · rcases List.mem_cons.mp h1 with h2 | h2
          · have hb2 : batch2 = s.collected := (ChainCont.flushResume.inj h2).1
            rw [hb2]
            exact h.coll_ne ht
          · cases h2
      · intro hcontra
        cases hcontra
    · rw [if_neg ht]
      exact h
  | ioStep ok =>
    cases hr : s.running with
    | none =>
      have hgoal : stepCmd realpath bl (.ioStep ok) s = s := by
        simp [stepCmd, hr]
      rw [hgoal]
      exact h
    | some r =>
      cases hp : r.phase with
      | building =>
        cases ok with
        | true =>
          have hgoal : stepCmd realpath bl (.ioStep true) s =
              { s with running := some { r with phase := .writing },
                       trace := s.trace ++ [Ev.buildEnd r.bid] } := by
            simp [stepCmd, hr, hp]
          rw [hgoal]
          constructor
          · show cyclesOf bid _ = flushWeight realpath bl bid s.flushes
            unfold cyclesOf
            simp only []
            rw [startCountOf_append]
            have : startCountOf bid [Ev.buildEnd r.bid] = 0 := rfl
            rw [this]
            have hc := h.cycles_eq
            unfold cyclesOf at hc
            omega
          · exact h.sts_ok
          · exact h.flush_ne
          · exact h.coll_ne
        | false =>
          have hgoal : stepCmd realpath bl (.ioStep false) s =
              completeJob realpath bl r false s := by
            simp [stepCmd, hr, hp]
          rw [hgoal]
          exact FlushInv_completeJob realpath bl bid r false s h
      | writing =>
        have hgoal : stepCmd realpath bl (.ioStep ok) s =
            completeJob realpath bl r ok s := by
          simp [stepCmd, hr, hp]
        rw [hgoal]
        exact FlushInv_completeJob realpath bl bid r ok s h

theorem FlushInv_runCmds (realpath : FPath → FPath) (bl : List Bundler)
    (bid : Nat) (cmds : List WCmd) (s : WState)
    (h : FlushInv realpath bl bid s) :
    FlushInv realpath bl bid (runCmds realpath bl cmds s) := by
  induction cmds generalizing s with
  | nil => exact h
  | cons c rest ih => exact ih _ (FlushInv_stepCmd realpath bl bid c s h)

/-- C2 amended: the cycle-accounting law.  For every schedule and every
bundle, the rebuild cycles the session has committed to (started ones plus
queued job callbacks) equal the weight of the processed flush batches: one
cycle per processed debounce batch per bundler selected for it.  So a batch
arriving while a build is in flight is never dropped, all change events
coalesced into one batch trigger exactly one cycle per affected bundle, and
each further batch that arrives during an in-flight build triggers exactly
one further follow-up cycle. -/
theorem C2_thm (realpath : FPath → FPath) (bl : List Bundler) (bid : Nat)
    (cmds : List WCmd) :
    cyclesOf bid (runCmds realpath bl cmds WState.init) =
      flushWeight realpath bl bid
        (runCmds realpath bl cmds WState.init).flushes :=
  (FlushInv_runCmds realpath bl bid cmds WState.init
    (FlushInv_init realpath bl bid)).cycles_eq

/-- C2 counterexample: a single bundle tracks `/src/f.js`.  One batch starts
a build; while that build is in flight (no I/O step has completed), two more
change events each flush their own debounce batch.  After the in-flight
cycle completes, the machine runs two further full cycles: the trace holds
three `buildStart`s — two follow-up rebuild cycles, not the claimed exactly
one follow-up regardless of how many change events arrived mid-build. -/
theorem C2_cex :
    (runCmds (fun p => p) [⟨0, some ["/src/f.js"]⟩]
      [.change "/src/f.js", .timerFire,
        .change "/src/f.js", .timerFire,
        .change "/src/f.js", .timerFire] WState.init).running
      = some ⟨0, ["/src/f.js"], .building⟩
    ∧ (runCmds (fun p => p) [⟨0, some ["/src/f.js"]⟩]
      [.change "/src/f.js", .timerFire,
        .change "/src/f.js", .timerFire,
        .change "/src/f.js", .timerFire,
        .ioStep true, .ioStep true, .ioStep true,
        .ioStep true, .ioStep true, .ioStep true] WState.init).trace
      = [.buildStart 0 ["/src/f.js"], .buildEnd 0, .writeEnd 0,
          .buildStart 0 ["/src/f.js"], .buildEnd 0, .writeEnd 0,
          .buildStart 0 ["/src/f.js"], .buildEnd 0, .writeEnd 0]
    ∧ startCountOf 0
      ((runCmds (fun p => p) [⟨0, some ["/src/f.js"]⟩]
        [.change "/src/f.js", .timerFire,
          .change "/src/f.js", .timerFire,
          .change "/src/f.js", .timerFire,
          .ioStep true, .ioStep true, .ioStep true,
          .ioStep true, .ioStep true, .ioStep true] WState.init).trace) = 3 := by
  refine ⟨?_, ?_, ?_⟩ <;> decide

/-! ## C6: error handling during a rebuild cycle -/

theorem runReBuildCore_trace (bid : Nat) (st1 : RBStatus) (s : WState) :
    (runReBuildCore bid st1 s).trace = s.trace := by
  simp only [runReBuildCore]
  split
  · rfl
  · split
    · rfl
    · rfl

theorem runReBuild_trace (bid : Nat) (files : Option (List FPath)) (s : WState) :
    (runReBuild bid files s).trace = s.trace :=
  runReBuildCore_trace bid _ s

theorem foldl_runReBuild_trace (batch : List FPath) (bs : List Bundler)
    (s : WState) :
    ((bs.foldl (fun s b => runReBuild b.bid (some batch) s) s).trace = s.trace) := by
  induction bs generalizing s with
  | nil => rfl
  | cons b rest ih =>
    simp only [List.foldl_cons]
    rw [ih, runReBuild_trace]

/-- Each continuation appends its events after the existing trace. -/
theorem processCont_trace_mono (realpath : FPath → FPath) (bl : List Bundler)
    (c : ChainCont) (s : WState) :
    ∃ ext, (processCont realpath bl c s).trace = s.trace ++ ext := by
  cases c with
  | jobCb bid inv pos => exact ⟨[.buildStart bid inv], rfl⟩
  | rebuildResume bid pos =>
    refine ⟨[], ?_⟩
    simp only [processCont]
    rw [runReBuild_trace]
    simp
  | flushResume batch pos =>
    refine ⟨[], ?_⟩
    simp only [processCont]
    by_cases hf : (filterChangedBundles realpath bl batch).isEmpty
    · rw [if_pos hf]
      simp
    · rw [if_neg hf]
      rw [foldl_runReBuild_trace]
      simp

/-- The drain only ever appends to the trace. -/
theorem drainLoop_trace_mono (realpath : FPath → FPath) (bl : List Bundler)
    (fuel : Nat) (s : WState) :
    ∃ ext, (drainLoop realpath bl fuel s).trace = s.trace ++ ext := by
  induction fuel generalizing s with
  | zero => exact ⟨[], by simp [drainLoop]⟩
  | succ n ih =>
    simp only [drainLoop]
    cases hfr : findReady s.chainDone s.queue with
    | none => exact ⟨[], by simp⟩
    | some pair =>
      obtain ⟨c, rest⟩ := pair
      obtain ⟨e1, he1⟩ := processCont_trace_mono realpath bl c { s with queue := rest }
      obtain ⟨e2, he2⟩ := ih (processCont realpath bl c { s with queue := rest })
      refine ⟨e1 ++ e2, ?_⟩
      rw [he2, he1]
      simp

theorem drain_trace_mono (realpath : FPath → FPath) (bl : List Bundler)
    (s : WState) : ∃ ext, (drain realpath bl s).trace = s.trace ++ ext :=
  drainLoop_trace_mono realpath bl _ s

/-- C6: a `build()` failure in the watch rebuild cycle is caught by the
`try/catch` inside the chained job: the error is logged (the `errorLogged`
event follows the previous trace) and the chain promise still resolves, so
the session keeps running.  At the concrete scenario: bundle `0` fails, its
run state returns to not-running with no pending invalidation, bundle `1`'s
cycle — chained behind it — still starts and completes, and a later change
to one of bundle `0`'s tracked files triggers a fresh successful rebuild. -/
theorem C6_thm (realpath : FPath → FPath) (bl : List Bundler)
    (s : WState) (r : RunJob)
    (hrun : s.running = some r) (hph : r.phase = .building) :
    (∃ ext, (stepCmd realpath bl (.ioStep false) s).trace =
        s.trace ++ [Ev.errorLogged r.bid] ++ ext)
    ∧ (runCmds (fun p => p)
        [⟨0, some ["/src/a.js", "/src/shared.js"]⟩, ⟨1, some ["/src/shared.js"]⟩]
        [.change "/src/shared.js", .timerFire, .ioStep false] WState.init).trace
      = [.buildStart 0 ["/src/shared.js"], .errorLogged 0,
          .buildStart 1 ["/src/shared.js"]]
    ∧ rbGet (runCmds (fun p => p)
        [⟨0, some ["/src/a.js", "/src/shared.js"]⟩, ⟨1, some ["/src/shared.js"]⟩]
        [.change "/src/shared.js", .timerFire, .ioStep false] WState.init).statuses 0
      = ⟨false, some []⟩
    ∧ (runCmds (fun p => p)
        [⟨0, some ["/src/a.js", "/src/shared.js"]⟩, ⟨1, some ["/src/shared.js"]⟩]
        [.change "/src/shared.js", .timerFire, .ioStep false, .ioStep true,
          .ioStep true, .change "/src/a.js", .timerFire, .ioStep true,
          .ioStep true] WState.init).trace
      = [.buildStart 0 ["/src/shared.js"], .errorLogged 0,
          .buildStart 1 ["/src/shared.js"], .buildEnd 1, .writeEnd 1,
          .buildStart 0 ["/src/a.js"], .buildEnd 0, .writeEnd 0] := by
  refine ⟨?_, by decide, by decide, by decide⟩
  have hgoal : stepCmd realpath bl (.ioStep false) s =
      completeJob realpath bl r false s := by
    simp [stepCmd, hrun, hph]
  rw [hgoal]
  show ∃ ext,
    (drain realpath bl
      { s with running := none, chainDone := s.chainDone + 1,
               trace := s.trace ++ [Ev.errorLogged r.bid] }).trace =
      s.trace ++ [Ev.errorLogged r.bid] ++ ext
  obtain ⟨ext, hext⟩ := drain_trace_mono realpath bl
    { s with running := none, chainDone := s.chainDone + 1,
             trace := s.trace ++ [Ev.errorLogged r.bid] }
  exact ⟨ext, by rw [hext]⟩

/-- Witness for C6_thm at the in-flight state of the concrete scenario. -/
theorem C6_witness :
    ∃ ext, (stepCmd (fun p => p)
      [⟨0, some ["/src/a.js", "/src/shared.js"]⟩, ⟨1, some ["/src/shared.js"]⟩]
      (.ioStep false)
      (runCmds (fun p => p)
        [⟨0, some ["/src/a.js", "/src/shared.js"]⟩, ⟨1, some ["/src/shared.js"]⟩]
        [.change "/src/shared.js", .timerFire] WState.init)).trace =
      (runCmds (fun p => p)
        [⟨0, some ["/src/a.js", "/src/shared.js"]⟩, ⟨1, some ["/src/shared.js"]⟩]
        [.change "/src/shared.js", .timerFire] WState.init).trace
        ++ [Ev.errorLogged 0] ++ ext := by
  have h := C6_thm (fun p => p)
    [⟨0, some ["/src/a.js", "/src/shared.js"]⟩, ⟨1, some ["/src/shared.js"]⟩]
    (runCmds (fun p => p)
      [⟨0, some ["/src/a.js", "/src/shared.js"]⟩, ⟨1, some ["/src/shared.js"]⟩]
      [.change "/src/shared.js", .timerFire] WState.init)
    ⟨0, ["/src/shared.js"], .building⟩ (by decide) rfl
  exact h.1
